import Mathlib

/-!
# CRM record store: record model, line codec and store operations

A shallow embedding of `module2_crm_app` (`customers.h`, `utilities.h`,
`utilities.cpp`, `database.cpp`, `crm.cpp`).

Modelling conventions
* `std::string` is a list of characters (`Str`).
* An input stream is its unread characters together with its `eofbit` and
  `failbit`; `getline` follows the C++ standard's unformatted-input rules.
* An output stream is the text written so far.
* `Customer::ID` (`std::uint32_t`) is a `Nat`, reduced `% 2^32` wherever
  the C++ code converts or increments.
* `std::time_t` is an `Int`.
* `std::shared_ptr<Interaction>` is an owned `Interaction` value.
* `std::map<Customer::ID, Customer>` is an association list kept in strictly
  ascending key order.
* Loops over a stream carry a fuel argument and return `none` when the fuel
  runs out; the callers pass a fuel that is proved sufficient.
-/

namespace Crm

/-- A `std::string`. -/
abbrev Str := List Char

/-- The macro `SERIALIZATION_DELIMITER` of `customers.h`. -/
def SERIALIZATION_DELIMITER : Char := '\t'

/-- The macro `INVALID_CUSTOMER_ID` of `customers.h`. -/
def INVALID_CUSTOMER_ID : Nat := 0

/-! ## Streams -/

/-- An input stream: the characters not yet extracted and the two state bits
that the code observes. -/
structure IStream where
  buf : Str
  eofbit : Bool
  failbit : Bool
deriving DecidableEq, Repr

/-- A stream freshly constructed over a string (`std::stringstream ss{line}`). -/
def IStream.ofStr (s : Str) : IStream := ⟨s, false, false⟩

/-- The member `good()`: no state bit is set. -/
def IStream.good (is : IStream) : Bool := !is.eofbit && !is.failbit

/-- The member `eof()`. -/
def IStream.eof (is : IStream) : Bool := is.eofbit

/-- The member `fail()`, which is also the negation of `operator bool`. -/
def IStream.fail (is : IStream) : Bool := is.failbit

/-- The function `std::getline(is, str, delim)`.

When the sentry fails (the stream is not good) `failbit` is set and `str` is
left alone.  Otherwise `str` is erased and characters are extracted up to the
delimiter, which is extracted and discarded, or up to the end of the input,
which sets `eofbit`; extracting nothing at all sets `failbit`. -/
def getline (is : IStream) (str : Str) (delim : Char) : IStream × Str :=
  if !is.good then ({ is with failbit := true }, str)
  else
    let line := is.buf.takeWhile (fun c => c != delim)
    match is.buf.dropWhile (fun c => c != delim) with
    | [] => ({ buf := [], eofbit := true, failbit := line.isEmpty }, line)
    | _ :: rest => ({ buf := rest, eofbit := false, failbit := false }, line)

/-! ## utilities -/

/-- The decimal digits of `n`, most significant first, with `fuel` bounding
the number of digits produced. -/
def toDecimal : Nat → Nat → Str
  | 0, _ => []
  | fuel + 1, n =>
    if n < 10 then [Nat.digitChar n]
    else toDecimal fuel (n / 10) ++ [Nat.digitChar (n % 10)]

/-- The text `os << n` writes for an unsigned integer: its decimal numeral. -/
def printNat (n : Nat) : Str := toDecimal (n + 1) n

/-- The C function `isspace` in the "C" locale. -/
def isspace (c : Char) : Bool := c == ' ' || (9 ≤ c.toNat && c.toNat ≤ 13)

/-- The value of a run of decimal digits. -/
def parseDigits (ds : Str) : Nat :=
  ds.foldl (fun acc d => acc * 10 + (d.toNat - 48)) 0

/-- The optional sign in front of a numeral: whether it is a minus, and the
text after the sign. -/
def stripSign : Str → Bool × Str
  | [] => (false, [])
  | c :: r => if c = '-' then (true, r) else if c = '+' then (false, r) else (false, c :: r)

/-- The function `std::stoull(str)` (base 10): skip leading white space, take
an optional sign and the longest run of digits.  `none` stands for a thrown
exception: `std::invalid_argument` when there is no digit and
`std::out_of_range` when the value does not fit 64 bits.  A leading minus
negates the value in the unsigned 64-bit type. -/
def stoull (str : Str) : Option Nat :=
  let signed := stripSign (str.dropWhile isspace)
  let ds := signed.2.takeWhile Char.isDigit
  if ds.isEmpty then none
  else
    let v := parseDigits ds
    if 2 ^ 64 ≤ v then none
    else some (if signed.1 then (2 ^ 64 - v) % 2 ^ 64 else v)

/-- The template `utilities::try_convert<std::uint32_t>`: the 64-bit value is
narrowed to 32 bits; on an exception the output keeps its old value. -/
def try_convert (input : Str) (output : Nat) : Bool × Nat :=
  match stoull input with
  | some v => (true, v % 2 ^ 32)
  | none => (false, output)

/-- The function `utilities::to_timestamp`.  The library calls
`std::get_time` and `std::mktime` are the parameter `parse`: `none` when the
extraction sets `failbit`, otherwise the resulting `time_t`. -/
def to_timestamp (parse : Str → Option Int) (date : Str) (output : Int) : Bool × Int :=
  match parse date with
  | none => (false, output)
  | some t => (true, t)

/-- The function `utilities::is_valid_date`. -/
def is_valid_date (parse : Str → Option Int) (date : Str) : Bool :=
  (to_timestamp parse date 0).1

/-- The function `utilities::remove_chars_from_str`: `std::replace_if` with
the predicate "occurs in `pattern`". -/
def remove_chars_from_str (str pattern : Str) (replace : Char) : Str :=
  str.map (fun c => if pattern.any (fun p => p == c) then replace else c)

/-! ## Record model -/

/-- The struct `Interaction`. -/
structure Interaction where
  when_ : Str
  what_ : Str
deriving DecidableEq, Repr

/-- The struct `Customer`. -/
structure Customer where
  id_ : Nat
  name_ : Str
  surname_ : Str
  customer_interactions_ : List Interaction
deriving DecidableEq, Repr

/-- A value-initialised customer, `Customer customer{}`. -/
def Customer.fresh : Customer := ⟨0, [], [], []⟩

/-- The stream operator `operator<<(os, interaction)`. -/
def Interaction.write (os : Str) (interaction : Interaction) : Str :=
  (os ++ interaction.when_ ++ [SERIALIZATION_DELIMITER]) ++ interaction.what_

/-- The method `Interaction::InRange`.  The result of `to_timestamp` is not
looked at; the local `timestamp` starts at zero. -/
def Interaction.InRange (parse : Str → Option Int) (i : Interaction)
    (from_timestamp to_timestamp : Int) : Bool :=
  let timestamp := (Crm.to_timestamp parse i.when_ 0).2
  decide (timestamp ≥ from_timestamp) && decide (timestamp ≤ to_timestamp)

/-- The method `Customer::IsValid`. -/
def Customer.IsValid (c : Customer) : Bool := decide (c.id_ > INVALID_CUSTOMER_ID)

/-- The method `Customer::HasInteractions`. -/
def Customer.HasInteractions (c : Customer) : Bool := !c.customer_interactions_.isEmpty

/-- The stream operator `operator<<(os, customer)`; `std::endl` writes a line
feed. -/
def Customer.write (os : Str) (customer : Customer) : Str :=
  let os := os ++ printNat customer.id_ ++ [SERIALIZATION_DELIMITER]
  let os := os ++ customer.name_ ++ [SERIALIZATION_DELIMITER]
  let os := os ++ customer.surname_
  let os := customer.customer_interactions_.foldl
    (fun os interaction => Interaction.write (os ++ [SERIALIZATION_DELIMITER]) interaction) os
  os ++ ['\n']

/-- The `while (!is.eof())` loop of `operator>>(is, customer)`. -/
def readInteractions : Nat → IStream → List Interaction → Option (IStream × List Interaction)
  | 0, _, _ => none
  | fuel + 1, is, acc =>
    if is.eof then some (is, acc)
    else
      let r1 := getline is [] SERIALIZATION_DELIMITER
      if r1.1.fail then some (r1.1, acc)
      else
        let r2 := getline r1.1 [] SERIALIZATION_DELIMITER
        if r2.1.fail then some (r2.1, acc)
        else readInteractions fuel r2.1 (acc ++ [⟨r1.2, r2.2⟩])

/-- The stream operator `operator>>(is, customer)`. -/
def Customer.read (is : IStream) (customer : Customer) : Option (IStream × Customer) :=
  let r0 := getline is [] SERIALIZATION_DELIMITER
  let id_ := (try_convert r0.2 customer.id_).2
  let r1 := getline r0.1 customer.name_ SERIALIZATION_DELIMITER
  let r2 := getline r1.1 customer.surname_ SERIALIZATION_DELIMITER
  match readInteractions (r2.1.buf.length + 1) r2.1 customer.customer_interactions_ with
  | none => none
  | some (is', interactions) => some (is', ⟨id_, r1.2, r2.2, interactions⟩)

/-- Decoding one line as `Database::LoadFromFile` does:
`std::stringstream ss{line}; Customer customer{}; ss >> customer;`. -/
def decodeLine (line : Str) : Option Customer :=
  (Customer.read (IStream.ofStr line) Customer.fresh).map Prod.snd

/-! ## The collection `std::map<Customer::ID, Customer>` -/

/-- The type of `Database::customers_`: entries in strictly ascending key
order (see `CustomerMap.WF`). -/
abbrev CustomerMap := List (Nat × Customer)

namespace CustomerMap

/-- The member `find`, returning the mapped value when the key is present. -/
def find : CustomerMap → Nat → Option Customer
  | [], _ => none
  | (k', v) :: rest, k => if k = k' then some v else find rest k

/-- The member `insert(std::make_pair(k, v))`: a key already present keeps
its old value. -/
def insert : CustomerMap → Nat → Customer → CustomerMap
  | [], k, v => [(k, v)]
  | (k', v') :: rest, k, v =>
    if k < k' then (k, v) :: (k', v') :: rest
    else if k = k' then (k', v') :: rest
    else (k', v') :: insert rest k v

/-- The statement `m[k] = std::move(v)`: `operator[]` creates the entry when
it is missing and the move assignment overwrites all four fields. -/
def assign : CustomerMap → Nat → Customer → CustomerMap
  | [], k, v => [(k, v)]
  | (k', v') :: rest, k, v =>
    if k < k' then (k, v) :: (k', v') :: rest
    else if k = k' then (k', v) :: rest
    else (k', v') :: assign rest k v

/-- The member `erase(k)`. -/
def erase : CustomerMap → Nat → CustomerMap
  | [], _ => []
  | (k', v') :: rest, k => if k = k' then rest else (k', v') :: erase rest k

/-- An update through the iterator returned by `find(k)`. -/
def modify : CustomerMap → Nat → (Customer → Customer) → CustomerMap
  | [], _, _ => []
  | (k', v') :: rest, k, f =>
    if k = k' then (k', f v') :: rest else (k', v') :: modify rest k f

/-- The keys in iteration order. -/
def keys (m : CustomerMap) : List Nat := m.map Prod.fst

/-- The representation invariant of the map: keys strictly ascending, each
a 32-bit value. -/
def WF (m : CustomerMap) : Prop :=
  (keys m).Pairwise (fun a b => a < b) ∧ ∀ k ∈ keys m, k < 2 ^ 32

instance (m : CustomerMap) : Decidable (WF m) := by
  unfold WF; infer_instance

end CustomerMap

/-! ## Database -/

/-- The class `Database` together with the backing file at `database_path_`:
`file` is the content of the file, `none` when it cannot be opened for
reading; `writable` tells whether opening it for writing succeeds. -/
structure Database where
  file : Option Str
  writable : Bool
  customers_ : CustomerMap
deriving DecidableEq, Repr

namespace Database

/-- The text `SaveDatabase` streams into the truncated file. -/
def fileText (m : CustomerMap) : Str :=
  m.foldl (fun os customer => Customer.write os customer.2) []

/-- The method `Database::SaveDatabase`. -/
def SaveDatabase (db : Database) : Database :=
  if !db.writable then db
  else { db with file := some (fileText db.customers_) }

/-- The `while (std::getline(file_stream, line))` loop of `LoadFromFile`. -/
def loadLoop : Nat → IStream → Str → CustomerMap → Option CustomerMap
  | 0, _, _, _ => none
  | fuel + 1, file_stream, line, customers =>
    let r := getline file_stream line '\n'
    if r.1.fail then some customers
    else
      match Customer.read (IStream.ofStr r.2) Customer.fresh with
      | none => none
      | some (_, customer) =>
        if !customer.IsValid then loadLoop fuel r.1 r.2 customers
        else loadLoop fuel r.1 r.2 (CustomerMap.assign customers customer.id_ customer)

/-- The method `Database::LoadFromFile`. -/
def LoadFromFile (db : Database) : Option (Bool × Database) :=
  match db.file with
  | none => some (false, db)
  | some content =>
    match loadLoop (content.length + 2) (IStream.ofStr content) [] db.customers_ with
    | none => none
    | some customers => some (true, { db with customers_ := customers })

/-- The constructor `Database::Database(database_path)`. -/
def create (file : Option Str) (writable : Bool) : Option Database :=
  (LoadFromFile ⟨file, writable, []⟩).map Prod.snd

/-- The method `Database::GetHighestCustomerID`. -/
def GetHighestCustomerID (db : Database) : Nat :=
  match db.customers_.getLast? with
  | none => 1
  | some entry => entry.1

/-- The method `Database::AddCustomer`; the increment is a 32-bit one. -/
def AddCustomer (db : Database) (name surname : Str) : Nat × Database :=
  let customer_id := (db.GetHighestCustomerID + 1) % 2 ^ 32
  let db1 := { db with
    customers_ := CustomerMap.insert db.customers_ customer_id ⟨customer_id, name, surname, []⟩ }
  (customer_id, db1.SaveDatabase)

/-- The method `Database::HasCustomer(name, surname)`. -/
def HasCustomerNamed (db : Database) (name surname : Str) : Bool :=
  db.customers_.any (fun customer =>
    decide (customer.2.name_ = name) && decide (customer.2.surname_ = surname))

/-- The method `Database::HasCustomer(customer_id)`. -/
def HasCustomer (db : Database) (customer_id : Nat) : Bool :=
  (CustomerMap.find db.customers_ customer_id).isSome

/-- The method `Database::GetCustomer`; `none` is the dereference of the end
iterator. -/
def GetCustomer (db : Database) (customer_id : Nat) : Option Customer :=
  CustomerMap.find db.customers_ customer_id

/-- The method `Database::UpdateClientInfo`. -/
def UpdateClientInfo (db : Database) (id : Nat) (name surname : Str) : Bool × Database :=
  if !db.HasCustomer id then (false, db)
  else
    let db1 := { db with
      customers_ := CustomerMap.modify db.customers_ id
        (fun c => { c with name_ := name, surname_ := surname }) }
    (true, db1.SaveDatabase)

/-- The method `Database::RemoveCustomer`. -/
def RemoveCustomer (db : Database) (id : Nat) : Bool × Database :=
  if !db.HasCustomer id then (false, db)
  else
    let db1 := { db with customers_ := CustomerMap.erase db.customers_ id }
    (true, db1.SaveDatabase)

/-- The method `Database::AddInteraction`. -/
def AddInteraction (db : Database) (id : Nat) (when_ what_ : Str) : Bool × Database :=
  if !db.HasCustomer id then (false, db)
  else
    let db1 := { db with
      customers_ := CustomerMap.modify db.customers_ id (fun c =>
        { c with customer_interactions_ := c.customer_interactions_ ++ [Interaction.mk when_ what_] }) }
    (true, db1.SaveDatabase)

/-- The method `Database::GetCustomerInteractionsInRange`; the result is the
output vector after the call. -/
def GetCustomerInteractionsInRange (parse : Str → Option Int) (db : Database) (id : Nat)
    (from_timestamp to_timestamp : Int) (interactions : List Interaction) : List Interaction :=
  if !db.HasCustomer id then interactions
  else
    match CustomerMap.find db.customers_ id with
    | none => interactions
    | some customer =>
      customer.customer_interactions_.foldl
        (fun out interaction =>
          if interaction.InRange parse from_timestamp to_timestamp then out ++ [interaction]
          else out)
        interactions

end Database

/-! ## CRM -/

/-- The class `CRM`, which owns the `Database`. -/
structure CRM where
  database_ : Database
deriving DecidableEq, Repr

namespace CRM

/-- The method `CRM::AddCustomer`. -/
def AddCustomer (crm : CRM) (name surname : Str) : Bool × CRM :=
  if crm.database_.HasCustomerNamed name surname then (false, crm)
  else
    let r := crm.database_.AddCustomer name surname
    (decide (r.1 ≠ INVALID_CUSTOMER_ID), ⟨r.2⟩)

/-- The method `CRM::FindCustomers`; the second component is the output
vector after the call. -/
def FindCustomers (crm : CRM) (id name surname : Str) (found_customers : List Nat) :
    Bool × List Nat :=
  let converted := try_convert id 0
  let found :=
    if converted.1 then
      if crm.database_.HasCustomer converted.2 then found_customers ++ [converted.2]
      else found_customers
    else
      crm.database_.customers_.foldl
        (fun found customer_entry =>
          let customer := customer_entry.2
          if !name.isEmpty && !surname.isEmpty then
            if customer.name_ = name ∧ customer.surname_ = surname then found ++ [customer.id_]
            else found
          else if !name.isEmpty then
            if customer.name_ = name then found ++ [customer.id_] else found
          else if !surname.isEmpty then
            if customer.surname_ = surname then found ++ [customer.id_] else found
          else found)
        found_customers
  (!found.isEmpty, found)

/-- The method `CRM::GetCustomer`. -/
def GetCustomer (crm : CRM) (id : Nat) : Option Customer :=
  crm.database_.GetCustomer id

/-- The method `CRM::UpdateClientInfo`. -/
def UpdateClientInfo (crm : CRM) (id : Nat) (name surname : Str) : Bool × CRM :=
  let r := crm.database_.UpdateClientInfo id name surname
  (r.1, ⟨r.2⟩)

/-- The method `CRM::RemoveCustomer`. -/
def RemoveCustomer (crm : CRM) (id : Nat) : Bool × CRM :=
  let r := crm.database_.RemoveCustomer id
  (r.1, ⟨r.2⟩)

/-- The method `CRM::AddInteraction`. -/
def AddInteraction (crm : CRM) (id : Nat) (when_ what_ : Str) : Bool × CRM :=
  let r := crm.database_.AddInteraction id when_ what_
  (r.1, ⟨r.2⟩)

/-- The method `CRM::PrintCustomerInteractions`: its return value, the
printing left out. -/
def PrintCustomerInteractions (parse : Str → Option Int) (crm : CRM) (id : Nat)
    (from_timestamp to_timestamp : Int) : Bool :=
  let interactions :=
    crm.database_.GetCustomerInteractionsInRange parse id from_timestamp to_timestamp []
  !interactions.isEmpty

end CRM

/-! ## Auxiliary definitions for statements and proofs -/

/-- The fields joined with the delimiter `d` between neighbours. -/
def joinFields (d : Char) : List Str → Str
  | [] => []
  | [f] => f
  | f :: g :: rest => f ++ d :: joinFields d (g :: rest)

/-- The fields of a text: the maximal pieces free of the delimiter `d`.
There is always at least one field. -/
def splitFields (d : Char) : Str → List Str
  | [] => [[]]
  | c :: cs =>
    if c = d then [] :: splitFields d cs
    else
      match splitFields d cs with
      | [] => [[c]]
      | f :: fs => (c :: f) :: fs

/-- The interactions that the decode loop builds from the fields after the
surname: consecutive pairs, where a final pair is kept only when its note is
not empty and a final single field is dropped. -/
def pairFields : List Str → List Interaction
  | [] => []
  | [_] => []
  | [w, n] => if n.isEmpty then [] else [⟨w, n⟩]
  | w :: n :: rest => ⟨w, n⟩ :: pairFields rest

/-- The customer that decoding builds from the fields of a line. -/
def customerOfFields (fs : List Str) : Customer :=
  ⟨(try_convert (fs.getD 0 []) 0).2, fs.getD 1 [], fs.getD 2 [], pairFields (fs.drop 3)⟩

/-- The lines that the `getline` loop of `LoadFromFile` sees: the pieces
between line feeds, without an empty piece after the last line feed. -/
def fileLines (content : Str) : List Str :=
  let pieces := splitFields '\n' content
  if pieces.getLast?.getD [] = [] then pieces.dropLast else pieces

/-- One iteration of the load loop on an already extracted line. -/
def loadStep (customers : CustomerMap) (line : Str) : CustomerMap :=
  let customer := customerOfFields (splitFields SERIALIZATION_DELIMITER line)
  if !customer.IsValid then customers else CustomerMap.assign customers customer.id_ customer

/-- The text of one customer line without its line feed. -/
def Customer.line (c : Customer) : Str :=
  joinFields SERIALIZATION_DELIMITER
    (printNat c.id_ :: c.name_ :: c.surname_ ::
      c.customer_interactions_.flatMap (fun i => [i.when_, i.what_]))

/-- Neither the field delimiter nor the line feed occurs in the text. -/
def noSeparator (s : Str) : Prop := '\t' ∉ s ∧ '\n' ∉ s

instance (s : Str) : Decidable (noSeparator s) := by
  unfold noSeparator; infer_instance

/-- A customer that the file format can hold: a non-zero 32-bit id, no tab
and no line feed in any field, and an interaction log that is empty or ends
with a note that is not empty. -/
def Customer.Storable (c : Customer) : Prop :=
  0 < c.id_ ∧ c.id_ < 2 ^ 32 ∧ noSeparator c.name_ ∧ noSeparator c.surname_ ∧
    (∀ i ∈ c.customer_interactions_, noSeparator i.when_ ∧ noSeparator i.what_) ∧
    ∀ i ∈ c.customer_interactions_.getLast?, i.what_ ≠ []

instance (c : Customer) : Decidable c.Storable := by
  unfold Customer.Storable; infer_instance

/-- Every customer of the collection is stored under its own id. -/
def CustomerMap.KeysAreIds (m : CustomerMap) : Prop := ∀ e ∈ m, e.2.id_ = e.1

instance (m : CustomerMap) : Decidable (CustomerMap.KeysAreIds m) := by
  unfold CustomerMap.KeysAreIds; infer_instance

/-- The backing file holds the encoded lines of the customers of the
in-memory collection, one after the other in iteration order, and nothing
else. -/
def Database.FileConsistent (db : Database) : Prop :=
  db.file = some ((db.customers_.map (fun e => Customer.write [] e.2)).flatten)

instance (db : Database) : Decidable db.FileConsistent := by
  unfold Database.FileConsistent; infer_instance

/-- The search criterion of the scan in `CRM::FindCustomers`: the customer
agrees with every one of `name` and `surname` that is not empty, and at
least one of the two is not empty. -/
def matchesAttributes (name surname : Str) (c : Customer) : Bool :=
  (!name.isEmpty || !surname.isEmpty) &&
    (name.isEmpty || decide (c.name_ = name)) &&
    (surname.isEmpty || decide (c.surname_ = surname))

/-- A call of one of the four mutating methods of `Database`, with its
arguments. -/
inductive Database.Call where
  | addCustomer (name surname : Str)
  | updateClientInfo (id : Nat) (name surname : Str)
  | removeCustomer (id : Nat)
  | addInteraction (id : Nat) (when_ what_ : Str)
deriving DecidableEq, Repr

/-- The store after one call. -/
def Database.perform (db : Database) : Database.Call → Database
  | .addCustomer name surname => (db.AddCustomer name surname).2
  | .updateClientInfo id name surname => (db.UpdateClientInfo id name surname).2
  | .removeCustomer id => (db.RemoveCustomer id).2
  | .addInteraction id when_ what_ => (db.AddInteraction id when_ what_).2

/-- The store after a sequence of calls, made in order. -/
def Database.performAll (db : Database) (calls : List Database.Call) : Database :=
  calls.foldl Database.perform db

/-! ## Streams: lemmas -/

theorem getline_delim (f rest s : Str) (d : Char) (h : d ∉ f) :
    getline ⟨f ++ d :: rest, false, false⟩ s d = (⟨rest, false, false⟩, f) := by
  have hp : ∀ a ∈ f, (fun c => c != d) a = true := by
    intro a ha
    simp only [bne_iff_ne, ne_eq]
    rintro rfl
    exact h ha
  have h1 : (f ++ d :: rest).takeWhile (fun c => c != d) = f := by
    rw [List.takeWhile_append_of_pos hp]
    simp
  have h2 : (f ++ d :: rest).dropWhile (fun c => c != d) = d :: rest := by
    rw [List.dropWhile_append_of_pos hp]
    simp
  simp only [getline, IStream.good, h1, h2]
  rfl

theorem getline_end (f s : Str) (d : Char) (h : d ∉ f) :
    getline ⟨f, false, false⟩ s d = (⟨[], true, f.isEmpty⟩, f) := by
  have hp : ∀ a ∈ f, (fun c => c != d) a = true := by
    intro a ha
    simp only [bne_iff_ne, ne_eq]
    rintro rfl
    exact h ha
  have h1 : f.takeWhile (fun c => c != d) = f := by
    rw [List.takeWhile_eq_self_iff]
    exact hp
  have h2 : f.dropWhile (fun c => c != d) = [] := by
    rw [List.dropWhile_eq_nil_iff]
    exact hp
  simp only [getline, IStream.good, h1, h2]
  rfl

theorem getline_eof (b s : Str) (fb : Bool) (d : Char) :
    getline ⟨b, true, fb⟩ s d = (⟨b, true, true⟩, s) := by
  simp [getline, IStream.good]

theorem readInteractions_eof (fuel : Nat) (b : Str) (fb : Bool) (acc : List Interaction) :
    readInteractions (fuel + 1) ⟨b, true, fb⟩ acc = some (⟨b, true, fb⟩, acc) := by
  simp [readInteractions, IStream.eof]

theorem readInteractions_fields (n : Nat) :
    ∀ fs : List Str, fs.length ≤ n → fs ≠ [] →
      (∀ f ∈ fs, SERIALIZATION_DELIMITER ∉ f) →
      ∀ (fuel : Nat) (acc : List Interaction),
        (joinFields SERIALIZATION_DELIMITER fs).length < fuel →
        ∃ is', readInteractions fuel ⟨joinFields SERIALIZATION_DELIMITER fs, false, false⟩ acc
          = some (is', acc ++ pairFields fs) := by
  induction n using Nat.strong_induction_on with
  | _ n ih =>
    intro fs hlen hne hfs fuel acc hfuel
    obtain ⟨k, rfl⟩ : ∃ k, fuel = k + 1 := ⟨fuel - 1, by omega⟩
    match fs, hne with
    | [f], _ =>
      have hf := hfs f (by simp)
      by_cases he : f = []
      · subst he
        refine ⟨⟨[], true, true⟩, ?_⟩
        simp [readInteractions, joinFields, IStream.eof, IStream.fail, getline_end, pairFields]
      · refine ⟨⟨[], true, true⟩, ?_⟩
        have hne' : f.isEmpty = false := by simpa using he
        simp [readInteractions, joinFields, IStream.eof, IStream.fail, getline_end, hf, hne',
          getline_eof, pairFields]
    | [w, m], _ =>
      have hw := hfs w (by simp)
      have hm := hfs m (by simp)
      simp only [joinFields, List.length_append, List.length_cons] at hfuel
      obtain ⟨j, rfl⟩ : ∃ j, k = j + 1 := ⟨k - 1, by omega⟩
      by_cases he : m = []
      · subst he
        refine ⟨⟨[], true, true⟩, ?_⟩
        simp [readInteractions, joinFields, IStream.eof, IStream.fail, getline_delim, hw,
          getline_end, pairFields]
      · refine ⟨⟨[], true, false⟩, ?_⟩
        have hne' : m.isEmpty = false := by simpa using he
        simp [readInteractions, joinFields, IStream.eof, IStream.fail, getline_delim, hw,
          getline_end, hm, hne', pairFields]
    | w :: m :: g :: rest, _ =>
      have hw := hfs w (by simp)
      have hm := hfs m (by simp)
      simp only [joinFields, List.length_append, List.length_cons] at hfuel
      simp only [List.length_cons] at hlen
      have hrest : ∀ f ∈ g :: rest, SERIALIZATION_DELIMITER ∉ f := by
        intro f hf
        exact hfs f (by simp only [List.mem_cons] at hf ⊢; tauto)
      obtain ⟨is', h⟩ := ih (n - 2) (by omega) (g :: rest) (by simp only [List.length_cons]; omega)
        (by simp) hrest k (acc ++ [⟨w, m⟩]) (by omega)
      refine ⟨is', ?_⟩
      simp only [readInteractions, joinFields, IStream.eof, IStream.fail, getline_delim _ _ _ _ hw,
        getline_delim _ _ _ _ hm]
      simp only [Bool.false_eq_true, if_false]
      rw [h]
      simp [pairFields]

/-! ## Fields: lemmas -/

theorem splitFields_ne_nil (d : Char) (s : Str) : splitFields d s ≠ [] := by
  induction s with
  | nil => simp [splitFields]
  | cons c cs ih =>
    simp only [splitFields]
    split
    · simp
    · split <;> simp

theorem joinFields_cons_of_ne_nil (d : Char) (f : Str) (fs : List Str) (h : fs ≠ []) :
    joinFields d (f :: fs) = f ++ d :: joinFields d fs := by
  cases fs with
  | nil => exact absurd rfl h
  | cons g rest => rfl

theorem joinFields_splitFields (d : Char) (s : Str) : joinFields d (splitFields d s) = s := by
  induction s with
  | nil => rfl
  | cons c cs ih =>
    simp only [splitFields]
    split
    · next h =>
      rw [joinFields_cons_of_ne_nil d [] _ (splitFields_ne_nil d cs), ih, h]
      rfl
    · split
      · next h => exact absurd h (splitFields_ne_nil d cs)
      · next f fs h =>
        rw [h] at ih
        cases fs with
        | nil => simpa [joinFields] using ih
        | cons g rest =>
          simp only [joinFields] at ih ⊢
          simp [ih]

theorem splitFields_no_delim (d : Char) (s : Str) : ∀ f ∈ splitFields d s, d ∉ f := by
  induction s with
  | nil => simp [splitFields]
  | cons c cs ih =>
    simp only [splitFields]
    split
    · intro f hf
      simp only [List.mem_cons] at hf
      rcases hf with rfl | hf
      · simp
      · exact ih f hf
    · next hc =>
      split
      · intro f hf
        simp only [List.mem_singleton] at hf
        subst hf
        simpa using Ne.symm hc
      · next g gs h =>
        rw [h] at ih
        intro f hf
        simp only [List.mem_cons] at hf
        rcases hf with rfl | hf
        · have := ih g (by simp)
          simp only [List.mem_cons, not_or]
          exact ⟨Ne.symm hc, this⟩
        · exact ih f (by simp [hf])

theorem splitFields_of_no_delim (d : Char) (f : Str) (h : d ∉ f) : splitFields d f = [f] := by
  induction f with
  | nil => rfl
  | cons c cs ih =>
    simp only [List.mem_cons, not_or] at h
    simp only [splitFields, if_neg (Ne.symm h.1), ih h.2]

theorem splitFields_append_delim (d : Char) (f rest : Str) (h : d ∉ f) :
    splitFields d (f ++ d :: rest) = f :: splitFields d rest := by
  induction f with
  | nil => simp [splitFields]
  | cons c cs ih =>
    simp only [List.mem_cons, not_or] at h
    have e : c :: cs ++ d :: rest = c :: (cs ++ d :: rest) := rfl
    rw [e]
    simp only [splitFields, if_neg (Ne.symm h.1), ih h.2]

theorem splitFields_joinFields (d : Char) (fs : List Str) (hne : fs ≠ [])
    (h : ∀ f ∈ fs, d ∉ f) : splitFields d (joinFields d fs) = fs := by
  induction fs with
  | nil => exact absurd rfl hne
  | cons f rest ih =>
    cases rest with
    | nil => exact splitFields_of_no_delim d f (h f (by simp))
    | cons g rest =>
      simp only [joinFields]
      rw [splitFields_append_delim d f _ (h f (by simp)), ih (by simp)]
      intro x hx
      exact h x (by simp only [List.mem_cons] at hx ⊢; tauto)

/-! ## Decoding: lemmas -/

theorem Customer_read_fields (fs : List Str) (hne : fs ≠ [])
    (hfs : ∀ f ∈ fs, SERIALIZATION_DELIMITER ∉ f) :
    ∃ is', Customer.read (IStream.ofStr (joinFields SERIALIZATION_DELIMITER fs)) Customer.fresh
      = some (is', customerOfFields fs) := by
  match fs, hne with
  | [f0], _ =>
    have h0 := hfs f0 (by simp)
    refine ⟨⟨[], true, true⟩, ?_⟩
    simp [Customer.read, IStream.ofStr, joinFields, getline_end, h0, getline_eof,
      readInteractions_eof, customerOfFields, pairFields, Customer.fresh]
  | [f0, f1], _ =>
    have h0 := hfs f0 (by simp)
    have h1 := hfs f1 (by simp)
    refine ⟨⟨[], true, true⟩, ?_⟩
    simp [Customer.read, IStream.ofStr, joinFields, getline_end, getline_delim, h0, h1, getline_eof,
      readInteractions_eof, customerOfFields, pairFields, Customer.fresh]
  | [f0, f1, f2], _ =>
    have h0 := hfs f0 (by simp)
    have h1 := hfs f1 (by simp)
    have h2 := hfs f2 (by simp)
    refine ⟨⟨[], true, f2.isEmpty⟩, ?_⟩
    simp [Customer.read, IStream.ofStr, joinFields, getline_end, getline_delim, h0, h1, h2,
      readInteractions_eof, customerOfFields, pairFields, Customer.fresh]
  | f0 :: f1 :: f2 :: g :: rest, _ =>
    have h0 := hfs f0 (by simp)
    have h1 := hfs f1 (by simp)
    have h2 := hfs f2 (by simp)
    have hrest : ∀ f ∈ g :: rest, SERIALIZATION_DELIMITER ∉ f := by
      intro f hf
      exact hfs f (by simp only [List.mem_cons] at hf ⊢; tauto)
    obtain ⟨is', h⟩ := readInteractions_fields (g :: rest).length (g :: rest) le_rfl (by simp)
      hrest ((joinFields SERIALIZATION_DELIMITER (g :: rest)).length + 1) [] (by omega)
    refine ⟨is', ?_⟩
    simp only [Customer.read, IStream.ofStr, joinFields, getline_delim _ _ _ _ h0,
      getline_delim _ _ _ _ h1, getline_delim _ _ _ _ h2, Customer.fresh]
    rw [h]
    simp [customerOfFields]

/-- Decoding a line never runs out of fuel, and its result is determined by
the tab-separated fields of the line. -/
theorem decodeLine_eq (line : Str) :
    decodeLine line = some (customerOfFields (splitFields SERIALIZATION_DELIMITER line)) := by
  obtain ⟨is', h⟩ := Customer_read_fields (splitFields SERIALIZATION_DELIMITER line)
    (splitFields_ne_nil _ _) (splitFields_no_delim _ _)
  rw [joinFields_splitFields] at h
  simp [decodeLine, h]

/-! ## Numerals: lemmas -/

theorem digitChar_isDigit (d : Nat) (h : d < 10) : (Nat.digitChar d).isDigit = true := by
  interval_cases d <;> decide

theorem digitChar_value (d : Nat) (h : d < 10) : (Nat.digitChar d).toNat - 48 = d := by
  interval_cases d <;> decide

theorem parseDigits_append (xs : Str) (c : Char) :
    parseDigits (xs ++ [c]) = parseDigits xs * 10 + (c.toNat - 48) := by
  simp [parseDigits, List.foldl_append]

theorem toDecimal_spec (fuel : Nat) : ∀ n, n < fuel →
    (∀ c ∈ toDecimal fuel n, c.isDigit = true) ∧ toDecimal fuel n ≠ [] ∧
      parseDigits (toDecimal fuel n) = n := by
  induction fuel with
  | zero => intro n h; omega
  | succ k ih =>
    intro n h
    simp only [toDecimal]
    split
    · next hn =>
      refine ⟨?_, by simp, ?_⟩
      · intro c hc
        simp only [List.mem_singleton] at hc
        subst hc
        exact digitChar_isDigit n hn
      · simp [parseDigits, digitChar_value n hn]
    · next hn =>
      obtain ⟨h1, _, h3⟩ := ih (n / 10) (by omega)
      refine ⟨?_, by simp, ?_⟩
      · intro c hc
        simp only [List.mem_append, List.mem_singleton] at hc
        rcases hc with hc | rfl
        · exact h1 c hc
        · exact digitChar_isDigit _ (Nat.mod_lt _ (by decide))
      · rw [parseDigits_append, h3, digitChar_value _ (Nat.mod_lt _ (by decide))]
        omega

theorem stoull_digits (ds : Str) (hne : ds ≠ []) (hd : ∀ c ∈ ds, c.isDigit = true)
    (hv : parseDigits ds < 2 ^ 64) : stoull ds = some (parseDigits ds) := by
  obtain ⟨c, cs, rfl⟩ := List.exists_cons_of_ne_nil hne
  have hc : c.isDigit = true := hd c (by simp)
  have hsp : isspace c = false := by
    simp only [Char.isDigit, Bool.and_eq_true, decide_eq_true_eq] at hc
    have h48 : 48 ≤ c.toNat := by
      have := hc.1
      exact this
    simp only [isspace, Bool.or_eq_false_iff, beq_eq_false_iff_ne, ne_eq, Bool.and_eq_false_imp,
      decide_eq_true_eq, decide_eq_false_iff_not, not_le]
    refine ⟨?_, fun _ => by omega⟩
    rintro rfl
    revert h48
    decide
  have hminus : c ≠ '-' := by
    rintro rfl
    revert hc
    decide
  have hplus : c ≠ '+' := by
    rintro rfl
    revert hc
    decide
  have htake : (c :: cs).takeWhile Char.isDigit = c :: cs := by
    rw [List.takeWhile_eq_self_iff]
    exact hd
  have hdrop : (c :: cs).dropWhile isspace = c :: cs := by
    simp [List.dropWhile, hsp]
  unfold stoull
  simp only [hdrop]
  have hv' : ¬ 2 ^ 64 ≤ parseDigits (c :: cs) := Nat.not_le.mpr hv
  simp only [stripSign, if_neg hminus, if_neg hplus, htake, List.isEmpty_cons, Bool.false_eq_true,
    if_false, if_neg hv']

theorem stoull_printNat (n : Nat) (h : n < 2 ^ 64) : stoull (printNat n) = some n := by
  obtain ⟨h1, h2, h3⟩ := toDecimal_spec (n + 1) n (by omega)
  have := stoull_digits (printNat n) h2 h1 (by rw [printNat, h3]; exact h)
  rw [this, printNat, h3]

theorem try_convert_printNat (n o : Nat) (h : n < 2 ^ 32) :
    try_convert (printNat n) o = (true, n) := by
  have h64 : n < 2 ^ 64 := lt_of_lt_of_le h (by norm_num)
  simp only [try_convert, stoull_printNat n h64, Nat.mod_eq_of_lt h]

theorem printNat_no_char (n : Nat) (d : Char) (hd : d.isDigit = false) : d ∉ printNat n := by
  intro hmem
  have := (toDecimal_spec (n + 1) n (by omega)).1 d hmem
  rw [hd] at this
  exact absurd this (by decide)

/-! ## Unparsable id fields -/

/-- The empty field does not parse: `std::stoull` throws. -/
theorem stoull_nil : stoull [] = none := by
  decide

/-- A field whose first character is neither white space, a sign nor a digit
does not parse: `std::stoull` throws. -/
theorem stoull_eq_none_of_head (c : Char) (cs : Str) (hsp : isspace c = false)
    (hminus : c ≠ '-') (hplus : c ≠ '+') (hdig : c.isDigit = false) :
    stoull (c :: cs) = none := by
  have hdrop : (c :: cs).dropWhile isspace = c :: cs := by
    simp [List.dropWhile, hsp]
  have htake : (c :: cs).takeWhile Char.isDigit = [] := by
    simp [List.takeWhile, hdig]
  unfold stoull
  simp only [hdrop, stripSign, if_neg hminus, if_neg hplus, htake, List.isEmpty_nil, if_true]

/-! ## Encoding: lemmas -/

theorem foldl_write_interactions (ints : List Interaction) (os : Str) :
    ints.foldl
      (fun os interaction => Interaction.write (os ++ [SERIALIZATION_DELIMITER]) interaction) os
      = os ++ ints.flatMap (fun i =>
          SERIALIZATION_DELIMITER :: i.when_ ++ SERIALIZATION_DELIMITER :: i.what_) := by
  induction ints generalizing os with
  | nil => simp
  | cons i rest ih =>
    rw [List.foldl_cons, ih, List.flatMap_cons]
    simp [Interaction.write]

theorem joinFields_interactions (ints : List Interaction) (f : Str) :
    joinFields SERIALIZATION_DELIMITER (f :: ints.flatMap (fun i => [i.when_, i.what_]))
      = f ++ ints.flatMap (fun i =>
          SERIALIZATION_DELIMITER :: i.when_ ++ SERIALIZATION_DELIMITER :: i.what_) := by
  induction ints generalizing f with
  | nil => simp [joinFields]
  | cons i rest ih =>
    have e : f :: (i :: rest).flatMap (fun i => [i.when_, i.what_])
        = f :: i.when_ :: i.what_ :: rest.flatMap (fun i => [i.when_, i.what_]) := by
      simp [List.flatMap_cons]
    rw [e, joinFields_cons_of_ne_nil _ _ _ (by simp), joinFields_cons_of_ne_nil _ _ _ (by simp),
      ih, List.flatMap_cons]
    simp

/-- The encoder writes the tab-joined fields of the customer and a line feed
after whatever the stream already holds. -/
theorem Customer_write_eq (os : Str) (c : Customer) :
    Customer.write os c = os ++ Customer.line c ++ ['\n'] := by
  simp only [Customer.write, Customer.line, foldl_write_interactions, joinFields,
    joinFields_interactions]
  simp

theorem pairFields_flatMap (ints : List Interaction)
    (hlast : ∀ i, ints.getLast? = some i → i.what_ ≠ []) :
    pairFields (ints.flatMap (fun i => [i.when_, i.what_])) = ints := by
  induction ints with
  | nil => rfl
  | cons i rest ih =>
    cases rest with
    | nil =>
      have h := hlast i rfl
      have h' : i.what_.isEmpty = false := by simpa using h
      simp [pairFields, h']
    | cons j rest =>
      have ih' := ih (by
        intro x hx
        apply hlast x
        simpa [List.getLast?_cons_cons] using hx)
      simp only [List.flatMap_cons, List.cons_append, List.nil_append] at ih' ⊢
      rw [pairFields, ih']
      simp

theorem Customer_line_fields_no_delim (c : Customer)
    (hname : SERIALIZATION_DELIMITER ∉ c.name_) (hsur : SERIALIZATION_DELIMITER ∉ c.surname_)
    (hint : ∀ i ∈ c.customer_interactions_,
      SERIALIZATION_DELIMITER ∉ i.when_ ∧ SERIALIZATION_DELIMITER ∉ i.what_) :
    ∀ f ∈ printNat c.id_ :: c.name_ :: c.surname_ ::
      c.customer_interactions_.flatMap (fun i => [i.when_, i.what_]),
      SERIALIZATION_DELIMITER ∉ f := by
  intro f hf
  simp only [List.mem_cons, List.mem_flatMap, List.mem_singleton, List.not_mem_nil, or_false] at hf
  rcases hf with rfl | rfl | rfl | ⟨i, hi, rfl | rfl⟩
  · exact printNat_no_char _ _ (by decide)
  · exact hname
  · exact hsur
  · exact (hint i hi).1
  · exact (hint i hi).2

/-- Decoding an encoded line gives back the id, name and surname, and the
interactions as the pairing of the written fields leaves them. -/
theorem decodeLine_line (c : Customer) (hid : c.id_ < 2 ^ 32)
    (hname : SERIALIZATION_DELIMITER ∉ c.name_) (hsur : SERIALIZATION_DELIMITER ∉ c.surname_)
    (hint : ∀ i ∈ c.customer_interactions_,
      SERIALIZATION_DELIMITER ∉ i.when_ ∧ SERIALIZATION_DELIMITER ∉ i.what_) :
    decodeLine (Customer.line c) = some ⟨c.id_, c.name_, c.surname_,
      pairFields (c.customer_interactions_.flatMap (fun i => [i.when_, i.what_]))⟩ := by
  rw [decodeLine_eq, Customer.line,
    splitFields_joinFields _ _ (by simp) (Customer_line_fields_no_delim c hname hsur hint)]
  simp [customerOfFields, try_convert_printNat _ _ hid]

theorem pairFields_cons_cons_cons (w n g : Str) (rest : List Str) :
    pairFields (w :: n :: g :: rest) = ⟨w, n⟩ :: pairFields (g :: rest) := by
  simp [pairFields]

theorem pairFields_flatMap_append_single (pairs : List Interaction) (extra : Str) :
    pairFields (pairs.flatMap (fun i => [i.when_, i.what_]) ++ [extra]) = pairs := by
  induction pairs with
  | nil => rfl
  | cons i rest ih =>
    have e : (i :: rest).flatMap (fun i => [i.when_, i.what_]) ++ [extra]
        = i.when_ :: i.what_ :: (rest.flatMap (fun i => [i.when_, i.what_]) ++ [extra]) := by
      simp [List.flatMap_cons]
    rw [e]
    cases h : rest.flatMap (fun i => [i.when_, i.what_]) ++ [extra] with
    | nil => simp at h
    | cons g tl =>
      rw [pairFields_cons_cons_cons, ← h, ih]

/-! ## The line codec: claims -/

/-- C1, as stated, fails: the customer `(1, A, B, [(w, "")])` has no tab and
no line terminator in any field, yet decoding its encoded line gives a
customer with an empty interaction log. -/
theorem roundtrip_fails_for_empty_last_note :
    let c : Customer := ⟨1, ['A'], ['B'], [⟨['w'], []⟩]⟩
    ('\t' ∉ c.name_ ∧ '\n' ∉ c.name_ ∧ '\t' ∉ c.surname_ ∧ '\n' ∉ c.surname_ ∧
      ∀ i ∈ c.customer_interactions_,
        '\t' ∉ i.when_ ∧ '\n' ∉ i.when_ ∧ '\t' ∉ i.what_ ∧ '\n' ∉ i.what_) ∧
    decodeLine (Customer.write [] c).dropLast = some ⟨1, ['A'], ['B'], []⟩ ∧
    decodeLine (Customer.write [] c).dropLast ≠ some c := by
  decide

/-- C1 (amended): for every customer with a 32-bit id whose fields contain no
tab, and whose interaction log is empty or ends with an interaction whose
note is not empty, decoding the encoded line (line feed removed) gives back
the same customer: same id, name, surname and interactions in order. -/
theorem decode_encode_roundtrip (c : Customer) (hid : c.id_ < 2 ^ 32)
    (hname : '\t' ∉ c.name_) (hsur : '\t' ∉ c.surname_)
    (hint : ∀ i ∈ c.customer_interactions_, '\t' ∉ i.when_ ∧ '\t' ∉ i.what_)
    (hlast : ∀ i ∈ c.customer_interactions_.getLast?, i.what_ ≠ []) :
    decodeLine (Customer.write [] c).dropLast = some c := by
  rw [Customer_write_eq, List.nil_append, List.dropLast_concat,
    decodeLine_line c hid hname hsur hint, pairFields_flatMap _ hlast]

theorem decode_encode_roundtrip_witness :
    decodeLine (Customer.write []
      ⟨7, ['A', 'n', 'n'], ['L', 'e', 'e'], [⟨['d', '1'], ['h', 'i']⟩, ⟨['d', '2'], ['y', 'o']⟩]⟩).dropLast
      = some ⟨7, ['A', 'n', 'n'], ['L', 'e', 'e'],
          [⟨['d', '1'], ['h', 'i']⟩, ⟨['d', '2'], ['y', 'o']⟩]⟩ :=
  decode_encode_roundtrip _ (by decide) (by decide) (by decide) (by decide) (by decide)

/-- C8: a line made of an id field, a name field, a surname field, `k ≥ 0`
complete (occurredAt, note) pairs and one further unpaired field, joined by
tabs, decodes (without running out of fuel, without being rejected) to a
customer with that name and surname whose interaction log is exactly the `k`
pairs in order; the trailing field is dropped. -/
theorem decode_drops_unpaired_trailing_field (idf name surname extra : Str)
    (pairs : List Interaction)
    (hidf : '\t' ∉ idf) (hname : '\t' ∉ name) (hsur : '\t' ∉ surname)
    (hpairs : ∀ i ∈ pairs, '\t' ∉ i.when_ ∧ '\t' ∉ i.what_) (hextra : '\t' ∉ extra) :
    decodeLine (joinFields '\t'
        (idf :: name :: surname :: (pairs.flatMap (fun i => [i.when_, i.what_]) ++ [extra])))
      = some ⟨(try_convert idf 0).2, name, surname, pairs⟩ := by
  have hfs : ∀ f ∈ idf :: name :: surname ::
      (pairs.flatMap (fun i => [i.when_, i.what_]) ++ [extra]), SERIALIZATION_DELIMITER ∉ f := by
    intro f hf
    simp only [List.mem_cons, List.mem_append, List.mem_flatMap, List.mem_singleton,
      List.not_mem_nil, or_false] at hf
    rcases hf with rfl | rfl | rfl | ⟨i, hi, rfl | rfl⟩ | rfl
    · exact hidf
    · exact hname
    · exact hsur
    · exact (hpairs i hi).1
    · exact (hpairs i hi).2
    · exact hextra
  have hsplit := splitFields_joinFields SERIALIZATION_DELIMITER _ (by simp) hfs
  rw [decodeLine_eq]
  simp only [SERIALIZATION_DELIMITER] at hsplit ⊢
  rw [hsplit]
  simp [customerOfFields, pairFields_flatMap_append_single]

theorem decode_drops_unpaired_trailing_field_witness :
    decodeLine (joinFields '\t'
        (['4', '2'] :: ['A'] :: ['B'] ::
          (([⟨['d', '1'], ['h', 'i']⟩] : List Interaction).flatMap (fun i => [i.when_, i.what_])
            ++ [['d', '2']])))
      = some ⟨(try_convert ['4', '2'] 0).2, ['A'], ['B'], [⟨['d', '1'], ['h', 'i']⟩]⟩ :=
  decode_drops_unpaired_trailing_field _ _ _ _ _ (by decide) (by decide) (by decide) (by decide)
    (by decide)

/-- C9: when the first tab-separated field of a line does not parse as an
unsigned integer (`std::stoull` throws), decoding into a fresh customer still
returns: the id is 0, so `IsValid` is false, and name and surname are the
second and third fields (empty when the line has no such field). -/
theorem decode_unparsable_id (line : Str)
    (h : stoull ((splitFields '\t' line).getD 0 []) = none) :
    ∃ c, decodeLine line = some c ∧ c.id_ = 0 ∧ c.IsValid = false ∧
      c.name_ = (splitFields '\t' line).getD 1 [] ∧
      c.surname_ = (splitFields '\t' line).getD 2 [] := by
  refine ⟨_, decodeLine_eq line, ?_, ?_, rfl, rfl⟩
  · simp only [customerOfFields, try_convert, SERIALIZATION_DELIMITER, h]
  · simp only [customerOfFields, try_convert, SERIALIZATION_DELIMITER, h, Customer.IsValid,
      INVALID_CUSTOMER_ID]
    decide

theorem decode_unparsable_id_witness :
    ∃ c, decodeLine ['x', '\t', 'A', '\t', 'B'] = some c ∧ c.id_ = 0 ∧ c.IsValid = false ∧
      c.name_ = (splitFields '\t' ['x', '\t', 'A', '\t', 'B']).getD 1 [] ∧
      c.surname_ = (splitFields '\t' ['x', '\t', 'A', '\t', 'B']).getD 2 [] :=
  decode_unparsable_id _ (by decide)

/-! ## The collection: lemmas -/

namespace CustomerMap

theorem find_eq_none_iff (m : CustomerMap) (k : Nat) : m.find k = none ↔ k ∉ keys m := by
  induction m with
  | nil => simp [find, keys]
  | cons e rest ih =>
    obtain ⟨k', v⟩ := e
    simp only [find, keys, List.map_cons, List.mem_cons, not_or] at ih ⊢
    by_cases h : k = k'
    · simp [h]
    · simp [h, ih]

theorem find_isSome_iff (m : CustomerMap) (k : Nat) : (m.find k).isSome = true ↔ k ∈ keys m := by
  rw [← not_iff_not, ← find_eq_none_iff]
  cases m.find k <;> simp

theorem find_mem (m : CustomerMap) (k : Nat) (c : Customer) (h : m.find k = some c) :
    (k, c) ∈ m := by
  induction m with
  | nil => simp [find] at h
  | cons e rest ih =>
    obtain ⟨k', v⟩ := e
    simp only [find] at h
    by_cases hk : k = k'
    · simp only [hk, if_true, Option.some.injEq] at h
      simp [hk, h]
    · simp only [hk, if_false] at h
      exact List.mem_cons_of_mem _ (ih h)

theorem find_assign (m : CustomerMap) (k k' : Nat) (v : Customer) :
    (m.assign k v).find k' = if k' = k then some v else m.find k' := by
  induction m with
  | nil => simp [assign, find]
  | cons e rest ih =>
    obtain ⟨k0, v0⟩ := e
    simp only [assign]
    split
    · simp [find]
    · split
      · next h =>
        subst h
        by_cases hk : k' = k <;> simp [find, hk]
      · next h =>
        simp only [find, ih]
        by_cases hk : k' = k
        · subst hk
          simp [h]
        · simp [hk]

theorem find_insert_ne (m : CustomerMap) (k k' : Nat) (v : Customer) (hne : k' ≠ k) :
    (m.insert k v).find k' = m.find k' := by
  induction m with
  | nil => simp [insert, find, hne]
  | cons e rest ih =>
    obtain ⟨k0, v0⟩ := e
    simp only [insert]
    split
    · simp [find, hne]
    · split
      · rfl
      · simp only [find, ih]

theorem find_insert_self (m : CustomerMap) (k : Nat) (v : Customer) (h : m.find k = none) :
    (m.insert k v).find k = some v := by
  induction m with
  | nil => simp [insert, find]
  | cons e rest ih =>
    obtain ⟨k0, v0⟩ := e
    simp only [find] at h
    by_cases hk : k = k0
    · simp [hk] at h
    · simp only [hk, if_false] at h
      simp only [insert]
      split
      · simp [find]
      · simp [find, hk, ih h]

theorem find_insert_isSome (m : CustomerMap) (k : Nat) (v : Customer) :
    ((m.insert k v).find k).isSome = true := by
  induction m with
  | nil => simp [insert, find]
  | cons e rest ih =>
    obtain ⟨k0, v0⟩ := e
    simp only [insert]
    split
    · simp [find]
    · split
      · next h => simp [find, h]
      · next h => simp [find, h, ih]

theorem insert_of_lt (m : CustomerMap) (k : Nat) (v : Customer) (h : ∀ k' ∈ keys m, k' < k) :
    m.insert k v = m ++ [(k, v)] := by
  induction m with
  | nil => rfl
  | cons e rest ih =>
    obtain ⟨k0, v0⟩ := e
    have h0 : k0 < k := h k0 (by simp [keys])
    have hrest : ∀ k' ∈ keys rest, k' < k := fun k' hk' => h k' (by
      simp only [keys, List.map_cons, List.mem_cons] at hk' ⊢; exact Or.inr hk')
    simp only [insert, if_neg (Nat.not_lt.mpr (Nat.le_of_lt h0)), if_neg (Nat.ne_of_gt h0),
      ih hrest, List.cons_append]

theorem assign_of_lt (m : CustomerMap) (k : Nat) (v : Customer) (h : ∀ k' ∈ keys m, k' < k) :
    m.assign k v = m ++ [(k, v)] := by
  induction m with
  | nil => rfl
  | cons e rest ih =>
    obtain ⟨k0, v0⟩ := e
    have h0 : k0 < k := h k0 (by simp [keys])
    have hrest : ∀ k' ∈ keys rest, k' < k := fun k' hk' => h k' (by
      simp only [keys, List.map_cons, List.mem_cons] at hk' ⊢; exact Or.inr hk')
    simp only [assign, if_neg (Nat.not_lt.mpr (Nat.le_of_lt h0)), if_neg (Nat.ne_of_gt h0),
      ih hrest, List.cons_append]

theorem erase_append_single (m : CustomerMap) (k : Nat) (v : Customer) (h : k ∉ keys m) :
    erase (m ++ [(k, v)]) k = m := by
  induction m with
  | nil => simp [erase]
  | cons e rest ih =>
    obtain ⟨k0, v0⟩ := e
    simp only [keys, List.map_cons, List.mem_cons, not_or] at h
    have e : ((k0, v0) :: rest) ++ [(k, v)] = (k0, v0) :: (rest ++ [(k, v)]) := rfl
    rw [e, erase, if_neg h.1, ih h.2]

theorem WF_tail (e : Nat × Customer) (m : CustomerMap) (h : WF (e :: m)) : WF m := by
  obtain ⟨h1, h2⟩ := h
  simp only [keys, List.map_cons, List.pairwise_cons, List.mem_cons] at h1 h2
  exact ⟨h1.2, fun k hk => h2 k (Or.inr hk)⟩

/-- In a well-formed map the last entry carries the highest key. -/
theorem le_getLast (m : CustomerMap) (h : WF m) (e : Nat × Customer)
    (he : m.getLast? = some e) : ∀ k ∈ keys m, k ≤ e.1 := by
  induction m with
  | nil => simp at he
  | cons e0 rest ih =>
    cases rest with
    | nil =>
      simp only [List.getLast?_singleton, Option.some.injEq] at he
      subst he
      simp [keys]
    | cons e1 rest =>
      rw [List.getLast?_cons_cons] at he
      have ih' := ih (WF_tail _ _ h) he
      intro k hk
      simp only [keys, List.map_cons, List.mem_cons] at hk
      rcases hk with rfl | hk
      · have h1 := h.1
        simp only [keys, List.map_cons, List.pairwise_cons, List.mem_cons] at h1
        have hlt := h1.1 e1.1 (Or.inl rfl)
        have hle := ih' e1.1 (by simp [keys])
        omega
      · exact ih' k (by simpa [keys] using hk)

theorem getLast_mem_keys (m : CustomerMap) (e : Nat × Customer) (he : m.getLast? = some e) :
    e.1 ∈ keys m := by
  have := List.mem_of_getLast?_eq_some he
  exact List.mem_map_of_mem Prod.fst this

end CustomerMap

/-! ## Loading: lemmas -/

theorem Customer_read_line (line : Str) :
    ∃ is', Customer.read (IStream.ofStr line) Customer.fresh
      = some (is', customerOfFields (splitFields SERIALIZATION_DELIMITER line)) := by
  obtain ⟨is', h⟩ := Customer_read_fields (splitFields SERIALIZATION_DELIMITER line)
    (splitFields_ne_nil _ _) (splitFields_no_delim _ _)
  rw [joinFields_splitFields] at h
  exact ⟨is', h⟩

namespace Database

theorem loadLoop_eof (fuel : Nat) (b line : Str) (fb : Bool) (m : CustomerMap) :
    loadLoop (fuel + 1) ⟨b, true, fb⟩ line m = some m := by
  simp [loadLoop, getline_eof, IStream.fail]

theorem loadLoop_step (fuel : Nat) (is' : IStream) (line old : Str) (file_stream : IStream)
    (m : CustomerMap) (hg : getline file_stream old '\n' = (is', line))
    (hf : is'.failbit = false) :
    loadLoop (fuel + 1) file_stream old m = loadLoop fuel is' line (loadStep m line) := by
  obtain ⟨s, hs⟩ := Customer_read_line line
  simp only [loadLoop, hg, IStream.fail, hf, Bool.false_eq_true, if_false, hs, loadStep]
  split <;> rfl

theorem loadLoop_pieces (ps : List Str) (hne : ps ≠ []) (hps : ∀ p ∈ ps, '\n' ∉ p) :
    ∀ (fuel : Nat) (line : Str) (m : CustomerMap),
      (joinFields '\n' ps).length + 2 ≤ fuel →
      loadLoop fuel ⟨joinFields '\n' ps, false, false⟩ line m
        = some ((if ps.getLast?.getD [] = [] then ps.dropLast else ps).foldl loadStep m) := by
  induction ps with
  | nil => exact absurd rfl hne
  | cons p rest ih =>
    intro fuel line m hfuel
    obtain ⟨k, rfl⟩ : ∃ k, fuel = k + 1 := ⟨fuel - 1, by omega⟩
    have hp := hps p (by simp)
    cases rest with
    | nil =>
      simp only [joinFields] at hfuel ⊢
      by_cases he : p = []
      · subst he
        simp [loadLoop, getline_end, IStream.fail]
      · have hne' : p.isEmpty = false := by simpa using he
        obtain ⟨j, rfl⟩ : ∃ j, k = j + 1 := ⟨k - 1, by omega⟩
        rw [loadLoop_step _ _ _ _ _ _ (getline_end p line '\n' hp) hne', hne', loadLoop_eof]
        simp [he]
    | cons q rest =>
      simp only [joinFields, List.length_append, List.length_cons] at hfuel
      have hrest : ∀ x ∈ q :: rest, '\n' ∉ x := by
        intro x hx
        exact hps x (List.mem_cons_of_mem _ hx)
      have ih' := ih (by simp) hrest k p (loadStep m p) (by omega)
      simp only [joinFields]
      rw [loadLoop_step _ _ _ _ _ _ (getline_delim p _ line '\n' hp) rfl, ih']
      rw [List.getLast?_cons_cons]
      split <;> simp [List.dropLast]

/-- Loading an openable file never runs out of fuel, returns true, and folds
the per-line step over the lines of the file. -/
theorem LoadFromFile_eq (content : Str) (w : Bool) (m : CustomerMap) :
    LoadFromFile ⟨some content, w, m⟩
      = some (true, ⟨some content, w, (fileLines content).foldl loadStep m⟩) := by
  have h := loadLoop_pieces (splitFields '\n' content) (splitFields_ne_nil _ _)
    (splitFields_no_delim _ _) (content.length + 2) [] m
    (by rw [joinFields_splitFields])
  rw [joinFields_splitFields] at h
  simp only [LoadFromFile, IStream.ofStr, h, fileLines]

end Database

theorem find_loadStep (m : CustomerMap) (line : Str) (k : Nat) :
    CustomerMap.find (loadStep m line) k
      = if (customerOfFields (splitFields SERIALIZATION_DELIMITER line)).IsValid = true ∧
          k = (customerOfFields (splitFields SERIALIZATION_DELIMITER line)).id_
        then some (customerOfFields (splitFields SERIALIZATION_DELIMITER line))
        else CustomerMap.find m k := by
  simp only [loadStep]
  by_cases hv : (customerOfFields (splitFields SERIALIZATION_DELIMITER line)).IsValid = true
  · simp only [hv, Bool.not_true, Bool.false_eq_true, if_false, CustomerMap.find_assign, true_and]
  · simp only [hv, Bool.not_eq_true] at hv ⊢
    simp [hv]

theorem foldl_loadStep_find (ls : List Str) :
    ∀ (m0 : CustomerMap) (k : Nat) (c : Customer),
      CustomerMap.find (ls.foldl loadStep m0) k = some c →
      CustomerMap.find m0 k = some c ∨
        (c.IsValid = true ∧ c.id_ = k ∧ ∃ line ∈ ls, decodeLine line = some c) := by
  induction ls with
  | nil => intro m0 k c h; exact Or.inl h
  | cons l rest ih =>
    intro m0 k c h
    rw [List.foldl_cons] at h
    rcases ih _ k c h with h1 | ⟨hv, hk, line, hl, hd⟩
    · rw [find_loadStep] at h1
      split at h1
      · next hc =>
        simp only [Option.some.injEq] at h1
        subst h1
        exact Or.inr ⟨hc.1, hc.2.symm, l, by simp, decodeLine_eq l⟩
      · exact Or.inl h1
    · exact Or.inr ⟨hv, hk, line, List.mem_cons_of_mem _ hl, hd⟩

theorem foldl_loadStep_keeps (ls : List Str) :
    ∀ (m0 : CustomerMap) (k : Nat), (CustomerMap.find m0 k).isSome = true →
      (CustomerMap.find (ls.foldl loadStep m0) k).isSome = true := by
  induction ls with
  | nil => intro m0 k h; exact h
  | cons l rest ih =>
    intro m0 k h
    rw [List.foldl_cons]
    apply ih
    rw [find_loadStep]
    split
    · rfl
    · exact h

theorem foldl_loadStep_loaded (ls : List Str) :
    ∀ (m0 : CustomerMap), ∀ line ∈ ls, ∀ c, decodeLine line = some c → c.IsValid = true →
      (CustomerMap.find (ls.foldl loadStep m0) c.id_).isSome = true := by
  induction ls with
  | nil => intro m0 line hl; simp at hl
  | cons l rest ih =>
    intro m0 line hl c hd hv
    rw [List.foldl_cons]
    simp only [List.mem_cons] at hl
    rcases hl with rfl | hl
    · apply foldl_loadStep_keeps
      rw [decodeLine_eq, Option.some.injEq] at hd
      rw [find_loadStep, hd]
      simp [hv]
    · exact ih _ line hl c hd hv

/-! ## Loading: claims -/

/-- C10: for every openable file content, loading into the empty collection
returns true (the loop always terminates); the collection then holds only
valid customers (id > 0), each stored under its own id and decoded from some
line of the file, so a line that decodes to id 0 is not inserted and 0 is
not a key; and every line of the file that decodes to an id > 0, wherever
it stands relative to invalid lines, has its id loaded as a key. -/
theorem load_tolerates_invalid_lines (content : Str) (w : Bool) :
    ∃ db, Database.LoadFromFile ⟨some content, w, []⟩ = some (true, db) ∧
      (∀ k c, CustomerMap.find db.customers_ k = some c →
        c.IsValid = true ∧ c.id_ = k ∧ ∃ line ∈ fileLines content, decodeLine line = some c) ∧
      db.HasCustomer 0 = false ∧
      (∀ line ∈ fileLines content, ∀ c, decodeLine line = some c → c.id_ > 0 →
        db.HasCustomer c.id_ = true) := by
  refine ⟨_, Database.LoadFromFile_eq content w [], ?_, ?_, ?_⟩
  · intro k c h
    rcases foldl_loadStep_find _ _ k c h with h0 | h1
    · simp [CustomerMap.find] at h0
    · exact h1
  · simp only [Database.HasCustomer]
    cases h : CustomerMap.find (List.foldl loadStep [] (fileLines content)) 0 with
    | none => rfl
    | some c =>
      rcases foldl_loadStep_find _ _ 0 c h with h0 | ⟨hv, hk, _⟩
      · simp [CustomerMap.find] at h0
      · simp [Customer.IsValid, INVALID_CUSTOMER_ID, hk] at hv
  · intro line hl c hd hpos
    exact foldl_loadStep_loaded _ _ line hl c hd
      (by simpa [Customer.IsValid, INVALID_CUSTOMER_ID] using hpos)

/-! ## Saving then loading: lemmas -/

theorem joinFields_no_char (d x : Char) (hx : x ≠ d) (fs : List Str) (h : ∀ f ∈ fs, x ∉ f) :
    x ∉ joinFields d fs := by
  induction fs with
  | nil => simp [joinFields]
  | cons f rest ih =>
    cases rest with
    | nil => simpa [joinFields] using h f (by simp)
    | cons g rest =>
      simp only [joinFields, List.mem_append, List.mem_cons, not_or]
      exact ⟨h f (by simp), hx, ih (fun y hy => h y (List.mem_cons_of_mem _ hy))⟩

theorem Customer_line_no_newline (c : Customer) (hs : c.Storable) : '\n' ∉ Customer.line c := by
  obtain ⟨_, _, hn, hsn, hi, _⟩ := hs
  apply joinFields_no_char _ _ (by decide)
  intro f hf
  simp only [List.mem_cons, List.mem_flatMap, List.mem_singleton, List.not_mem_nil, or_false] at hf
  rcases hf with rfl | rfl | rfl | ⟨i, hi', rfl | rfl⟩
  · exact printNat_no_char _ _ (by decide)
  · exact hn.2
  · exact hsn.2
  · exact (hi i hi').1.2
  · exact (hi i hi').2.2

theorem customerOfFields_line (c : Customer) (hs : c.Storable) :
    customerOfFields (splitFields SERIALIZATION_DELIMITER (Customer.line c)) = c := by
  obtain ⟨_, hid, hn, hsn, hi, hl⟩ := hs
  have h := decodeLine_line c hid hn.1 hsn.1 (fun i hi' => ⟨(hi i hi').1.1, (hi i hi').2.1⟩)
  rw [decodeLine_eq, pairFields_flatMap _ hl, Option.some.injEq] at h
  exact h

theorem loadStep_line (m : CustomerMap) (c : Customer) (hs : c.Storable) :
    loadStep m (Customer.line c) = CustomerMap.assign m c.id_ c := by
  have hv : c.IsValid = true := by
    simpa [Customer.IsValid, INVALID_CUSTOMER_ID] using hs.1
  simp [loadStep, customerOfFields_line c hs, hv]

theorem fileText_eq (m : CustomerMap) :
    Database.fileText m = m.flatMap (fun e => Customer.line e.2 ++ ['\n']) := by
  have h : ∀ (l : CustomerMap) (os : Str),
      l.foldl (fun os customer => Customer.write os customer.2) os
        = os ++ l.flatMap (fun e => Customer.line e.2 ++ ['\n']) := by
    intro l
    induction l with
    | nil => simp
    | cons e rest ih =>
      intro os
      rw [List.foldl_cons, ih, Customer_write_eq, List.flatMap_cons]
      simp
  simpa [Database.fileText] using h m []

theorem splitFields_terminated (ls : List Str) (h : ∀ l ∈ ls, '\n' ∉ l) :
    splitFields '\n' (ls.flatMap (fun l => l ++ ['\n'])) = ls ++ [[]] := by
  induction ls with
  | nil => rfl
  | cons l rest ih =>
    have e : (l :: rest).flatMap (fun l => l ++ ['\n'])
        = l ++ '\n' :: rest.flatMap (fun l => l ++ ['\n']) := by
      simp [List.flatMap_cons]
    rw [e, splitFields_append_delim _ _ _ (h l (by simp)),
      ih (fun x hx => h x (List.mem_cons_of_mem _ hx))]
    rfl

theorem fileLines_fileText (m : CustomerMap) (h : ∀ e ∈ m, e.2.Storable) :
    fileLines (Database.fileText m) = m.map (fun e => Customer.line e.2) := by
  have e : Database.fileText m
      = (m.map (fun e => Customer.line e.2)).flatMap (fun l => l ++ ['\n']) := by
    rw [fileText_eq, List.flatMap_map]
  have hl : ∀ l ∈ m.map (fun e => Customer.line e.2), '\n' ∉ l := by
    intro l hl
    simp only [List.mem_map] at hl
    obtain ⟨x, hx, rfl⟩ := hl
    exact Customer_line_no_newline _ (h x hx)
  rw [fileLines, e, splitFields_terminated _ hl]
  simp

theorem foldl_loadStep_lines (l : CustomerMap) :
    ∀ acc : CustomerMap, (CustomerMap.keys (acc ++ l)).Pairwise (fun a b => a < b) →
      (∀ e ∈ l, e.2.id_ = e.1 ∧ e.2.Storable) →
      (l.map (fun e => Customer.line e.2)).foldl loadStep acc = acc ++ l := by
  induction l with
  | nil => intro acc _ _; simp
  | cons e rest ih =>
    intro acc hp he
    obtain ⟨hid, hs⟩ := he e (by simp)
    have hlt : ∀ k ∈ CustomerMap.keys acc, k < e.2.id_ := by
      intro k hk
      simp only [CustomerMap.keys, List.map_append, List.map_cons, List.pairwise_append,
        List.mem_map, List.mem_cons] at hp hk
      rw [hid]
      obtain ⟨x, hx, rfl⟩ := hk
      exact hp.2.2 x.1 ⟨x, hx, rfl⟩ e.1 (Or.inl rfl)
    rw [List.map_cons, List.foldl_cons, loadStep_line _ _ hs, CustomerMap.assign_of_lt _ _ _ hlt]
    have hee : (e.2.id_, e.2) = e := by rw [hid]
    rw [hee, ih (acc ++ [e]) (by simpa using hp) (fun x hx => he x (List.mem_cons_of_mem _ hx))]
    simp

/-! ## Saving then loading: claims -/

/-- C2, as stated, fails: the collection reached from the empty store by
`AddCustomer("A", "B")` and `AddInteraction(2, "w", "")` is written by
`SaveDatabase`, and loading that file into an empty collection returns a
customer 2 whose interaction log is empty. -/
theorem load_after_save_loses_empty_note :
    let db1 := (Database.AddCustomer ⟨none, true, []⟩ ['A'] ['B']).2
    let r := Database.AddInteraction db1 2 ['w'] []
    r.1 = true ∧ r.2.SaveDatabase.file = r.2.file ∧
    CustomerMap.find r.2.customers_ 2 = some ⟨2, ['A'], ['B'], [⟨['w'], []⟩]⟩ ∧
    ∃ db, Database.LoadFromFile ⟨r.2.SaveDatabase.file, true, []⟩ = some (true, db) ∧
      CustomerMap.find db.customers_ 2 = some ⟨2, ['A'], ['B'], []⟩ ∧
      db.customers_ ≠ r.2.customers_ := by
  refine ⟨by decide, by decide, by decide,
    ⟨some ['2', '\t', 'A', '\t', 'B', '\t', 'w', '\t', '\n'], true, [(2, ⟨2, ['A'], ['B'], []⟩)]⟩,
    by decide, by decide, by decide⟩

/-- C2 (amended): for every collection with strictly ascending 32-bit keys
in which each customer is stored under its own id, that id is not 0, no
field contains a tab or a line feed, and each interaction log is empty or
ends with a non-empty note, loading the file written by `SaveDatabase` into
an empty collection returns true and reproduces the identical collection. -/
theorem load_after_save_identity (db : Database) (w : Bool) (hw : db.writable = true)
    (hwf : db.customers_.WF) (hs : ∀ e ∈ db.customers_, e.2.id_ = e.1 ∧ e.2.Storable) :
    Database.LoadFromFile ⟨db.SaveDatabase.file, w, []⟩
      = some (true, ⟨db.SaveDatabase.file, w, db.customers_⟩) := by
  have hf : db.SaveDatabase.file = some (Database.fileText db.customers_) := by
    simp [Database.SaveDatabase, hw]
  rw [hf, Database.LoadFromFile_eq, fileLines_fileText _ (fun e he => (hs e he).2),
    foldl_loadStep_lines _ [] (by simpa using hwf.1) hs]
  simp

theorem load_after_save_identity_witness :
    Database.LoadFromFile
        ⟨(Database.SaveDatabase ⟨none, true,
            [(1, ⟨1, ['A'], ['B'], []⟩), (3, ⟨3, ['C'], [], [⟨[], ['n']⟩]⟩)]⟩).file, false, []⟩
      = some (true,
        ⟨(Database.SaveDatabase ⟨none, true,
            [(1, ⟨1, ['A'], ['B'], []⟩), (3, ⟨3, ['C'], [], [⟨[], ['n']⟩]⟩)]⟩).file, false,
          [(1, ⟨1, ['A'], ['B'], []⟩), (3, ⟨3, ['C'], [], [⟨[], ['n']⟩]⟩)]⟩) :=
  load_after_save_identity ⟨none, true, [(1, ⟨1, ['A'], ['B'], []⟩), (3, ⟨3, ['C'], [], [⟨[], ['n']⟩]⟩)]⟩
    false rfl (by decide) (by decide)

/-! ## Identity assignment: lemmas -/

namespace Database

theorem customers_SaveDatabase (db : Database) : db.SaveDatabase.customers_ = db.customers_ := by
  unfold SaveDatabase
  split <;> rfl

theorem GetHighestCustomerID_nil (f : Option Str) (w : Bool) :
    GetHighestCustomerID ⟨f, w, []⟩ = 1 := rfl

/-- On a well-formed non-empty collection `GetHighestCustomerID` is the
greatest key. -/
theorem GetHighestCustomerID_eq (db : Database) (hwf : db.customers_.WF) (m : Nat)
    (hmem : m ∈ CustomerMap.keys db.customers_)
    (hmax : ∀ k ∈ CustomerMap.keys db.customers_, k ≤ m) : db.GetHighestCustomerID = m := by
  unfold GetHighestCustomerID
  cases h : db.customers_.getLast? with
  | none =>
    rw [List.getLast?_eq_none_iff] at h
    rw [h] at hmem
    simp [CustomerMap.keys] at hmem
  | some e =>
    have h1 := hmax e.1 (CustomerMap.getLast_mem_keys _ _ h)
    have h2 := CustomerMap.le_getLast _ hwf e h m hmem
    exact Nat.le_antisymm h1 h2

theorem customers_AddCustomer (db : Database) (name surname : Str) :
    (db.AddCustomer name surname).2.customers_
      = CustomerMap.insert db.customers_ (db.AddCustomer name surname).1
          ⟨(db.AddCustomer name surname).1, name, surname, []⟩ := by
  simp only [AddCustomer, customers_SaveDatabase]

end Database

/-! ## Identity assignment: claims -/

/-- C3, on the code: the first `AddCustomer` on an empty collection returns
2, because `GetHighestCustomerID` answers 1 for the empty collection and
`AddCustomer` increments it; a second call returns 3. -/
theorem first_AddCustomer_returns_two (file : Option Str) (w : Bool)
    (name surname name' surname' : Str) :
    (Database.AddCustomer ⟨file, w, []⟩ name surname).1 = 2 ∧
      (Database.AddCustomer (Database.AddCustomer ⟨file, w, []⟩ name surname).2
        name' surname').1 = 3 := by
  constructor
  · rfl
  · simp only [Database.AddCustomer, Database.GetHighestCustomerID, Database.customers_SaveDatabase]
    rfl

/-- C5: on a well-formed collection whose highest id `m` is below `2^32 - 1`,
`AddCustomer` returns `m + 1`, which was not a key before; afterwards the
collection maps `m + 1` to the customer `(m + 1, name, surname, [])`, and the
lookup of every other key is what it was before the call. -/
theorem AddCustomer_assigns_next_id (db : Database) (name surname : Str) (m : Nat)
    (hwf : db.customers_.WF)
    (hmem : m ∈ CustomerMap.keys db.customers_)
    (hmax : ∀ k ∈ CustomerMap.keys db.customers_, k ≤ m)
    (hlt : m < 2 ^ 32 - 1) :
    (db.AddCustomer name surname).1 = m + 1 ∧
      CustomerMap.find db.customers_ (m + 1) = none ∧
      CustomerMap.find (db.AddCustomer name surname).2.customers_ (m + 1)
        = some ⟨m + 1, name, surname, []⟩ ∧
      ∀ k, k ≠ m + 1 →
        CustomerMap.find (db.AddCustomer name surname).2.customers_ k
          = CustomerMap.find db.customers_ k := by
  have hid : (db.AddCustomer name surname).1 = m + 1 := by
    simp only [Database.AddCustomer, Database.GetHighestCustomerID_eq db hwf m hmem hmax]
    exact Nat.mod_eq_of_lt (by omega)
  have hnone : CustomerMap.find db.customers_ (m + 1) = none := by
    rw [CustomerMap.find_eq_none_iff]
    intro h
    have := hmax _ h
    omega
  refine ⟨hid, hnone, ?_, ?_⟩
  · rw [Database.customers_AddCustomer, hid]
    exact CustomerMap.find_insert_self _ _ _ hnone
  · intro k hk
    rw [Database.customers_AddCustomer, hid]
    exact CustomerMap.find_insert_ne _ _ _ _ hk

theorem AddCustomer_assigns_next_id_witness :
    (Database.AddCustomer ⟨none, true, [(1, ⟨1, ['A'], ['B'], []⟩), (4, ⟨4, ['C'], ['D'], []⟩)]⟩
        ['E'] ['F']).1 = 4 + 1 ∧
      CustomerMap.find [(1, ⟨1, ['A'], ['B'], []⟩), (4, ⟨4, ['C'], ['D'], []⟩)] (4 + 1) = none ∧
      CustomerMap.find
        (Database.AddCustomer ⟨none, true, [(1, ⟨1, ['A'], ['B'], []⟩), (4, ⟨4, ['C'], ['D'], []⟩)]⟩
          ['E'] ['F']).2.customers_ (4 + 1) = some ⟨4 + 1, ['E'], ['F'], []⟩ ∧
      ∀ k, k ≠ 4 + 1 →
        CustomerMap.find
          (Database.AddCustomer
            ⟨none, true, [(1, ⟨1, ['A'], ['B'], []⟩), (4, ⟨4, ['C'], ['D'], []⟩)]⟩
            ['E'] ['F']).2.customers_ k
          = CustomerMap.find [(1, ⟨1, ['A'], ['B'], []⟩), (4, ⟨4, ['C'], ['D'], []⟩)] k :=
  AddCustomer_assigns_next_id
    ⟨none, true, [(1, ⟨1, ['A'], ['B'], []⟩), (4, ⟨4, ['C'], ['D'], []⟩)]⟩ ['E'] ['F'] 4
    (by decide) (by decide) (by decide) (by decide)

/-- Adding a customer under the next id and erasing that id again leaves
the last entry of a well-formed collection where it was. -/
theorem getLast_erase_insert_next (db : Database) (hwf : db.customers_.WF) (c : Customer) :
    (CustomerMap.erase
        (CustomerMap.insert db.customers_ ((db.GetHighestCustomerID + 1) % 2 ^ 32) c)
        ((db.GetHighestCustomerID + 1) % 2 ^ 32)).getLast?
      = db.customers_.getLast? := by
  obtain ⟨f, w, m⟩ := db
  simp only [Database.GetHighestCustomerID] at hwf ⊢
  cases hl : m.getLast? with
  | none =>
    rw [List.getLast?_eq_none_iff] at hl
    subst hl
    rfl
  | some e =>
    simp only
    have hmax := CustomerMap.le_getLast m hwf e hl
    have hmem := CustomerMap.getLast_mem_keys m e hl
    have hb : e.1 < 2 ^ 32 := hwf.2 _ hmem
    by_cases hwrap : e.1 + 1 < 2 ^ 32
    · rw [Nat.mod_eq_of_lt hwrap,
        CustomerMap.insert_of_lt m _ c (fun k hk => Nat.lt_succ_of_le (hmax k hk)),
        CustomerMap.erase_append_single m _ c (fun h => by have := hmax _ h; omega), hl]
    · have he : e.1 + 1 = 2 ^ 32 := by omega
      rw [he, Nat.mod_self]
      match m, hl, hmem with
      | (k0, v0) :: rest, hl, _ =>
        by_cases h0 : k0 = 0
        · subst h0
          simp only [CustomerMap.insert, Nat.lt_irrefl, if_false, if_true, CustomerMap.erase]
          cases rest with
          | nil =>
            simp only [List.getLast?_singleton, Option.some.injEq] at hl
            rw [← hl] at he
            simp at he
          | cons x xs =>
            rw [List.getLast?_cons_cons] at hl
            exact hl
        · have hpos : 0 < k0 := Nat.pos_of_ne_zero h0
          simp only [CustomerMap.insert, hpos, if_true, CustomerMap.erase]
          exact hl

/-- C4, as stated, fails: on the collection holding customer 1, `AddCustomer`
returns 2, `RemoveCustomer(2)` succeeds, and the next `AddCustomer` returns 2
again, which is not strictly greater. -/
theorem removed_id_is_reused_example :
    let db : Database := ⟨none, true, [(1, ⟨1, ['A'], ['B'], []⟩)]⟩
    let r1 := db.AddCustomer ['C'] ['D']
    let r2 := r1.2.RemoveCustomer r1.1
    let r3 := r2.2.AddCustomer ['E'] ['F']
    r1.1 = 2 ∧ r2.1 = true ∧ r3.1 = 2 ∧ ¬ (r3.1 > r1.1) := by
  decide

/-- C4 (amended): on every well-formed collection, if `AddCustomer` returns
id `a`, then `RemoveCustomer(a)` succeeds, and a further `AddCustomer`
returns `a` again: the id of the customer just removed is assigned to the
next customer, so the second id equals the first and is never greater. -/
theorem removed_id_is_reassigned (db : Database) (hwf : db.customers_.WF)
    (name surname name' surname' : Str) :
    ((db.AddCustomer name surname).2.RemoveCustomer (db.AddCustomer name surname).1).1 = true ∧
      (((db.AddCustomer name surname).2.RemoveCustomer
          (db.AddCustomer name surname).1).2.AddCustomer name' surname').1
        = (db.AddCustomer name surname).1 := by
  have hhas : (db.AddCustomer name surname).2.HasCustomer (db.AddCustomer name surname).1
      = true := by
    rw [Database.HasCustomer, Database.customers_AddCustomer]
    exact CustomerMap.find_insert_isSome _ _ _
  constructor
  · simp [Database.RemoveCustomer, hhas]
  · have hcust : ((db.AddCustomer name surname).2.RemoveCustomer
          (db.AddCustomer name surname).1).2.customers_
        = CustomerMap.erase (db.AddCustomer name surname).2.customers_
            (db.AddCustomer name surname).1 := by
      simp [Database.RemoveCustomer, hhas, Database.customers_SaveDatabase]
    have hlast := getLast_erase_insert_next db hwf
      ⟨(db.GetHighestCustomerID + 1) % 2 ^ 32, name, surname, []⟩
    have hhigh : ((db.AddCustomer name surname).2.RemoveCustomer
          (db.AddCustomer name surname).1).2.GetHighestCustomerID
        = db.GetHighestCustomerID := by
      rw [Database.GetHighestCustomerID, hcust, Database.customers_AddCustomer]
      simp only [Database.AddCustomer] at hlast ⊢
      rw [hlast]
      rfl
    simp only [Database.AddCustomer] at hhigh ⊢
    rw [hhigh]

theorem removed_id_is_reassigned_witness :
    ((Database.AddCustomer ⟨none, true, [(3, ⟨3, ['A'], ['B'], []⟩)]⟩ ['C'] ['D']).2.RemoveCustomer
        (Database.AddCustomer ⟨none, true, [(3, ⟨3, ['A'], ['B'], []⟩)]⟩ ['C'] ['D']).1).1 = true ∧
      (((Database.AddCustomer ⟨none, true, [(3, ⟨3, ['A'], ['B'], []⟩)]⟩ ['C'] ['D']).2.RemoveCustomer
          (Database.AddCustomer ⟨none, true, [(3, ⟨3, ['A'], ['B'], []⟩)]⟩ ['C'] ['D']).1).2.AddCustomer
            ['E'] ['F']).1
        = (Database.AddCustomer ⟨none, true, [(3, ⟨3, ['A'], ['B'], []⟩)]⟩ ['C'] ['D']).1 :=
  removed_id_is_reassigned ⟨none, true, [(3, ⟨3, ['A'], ['B'], []⟩)]⟩ (by decide) _ _ _ _

/-! ## Range query: lemmas -/

theorem foldl_collect (p : Interaction → Bool) (l : List Interaction) :
    ∀ out : List Interaction,
      l.foldl (fun out interaction => if p interaction then out ++ [interaction] else out) out
        = out ++ l.filter p := by
  induction l with
  | nil => intro out; simp
  | cons i rest ih =>
    intro out
    rw [List.foldl_cons, ih]
    by_cases h : p i = true
    · simp [h, List.filter_cons]
    · simp [h, List.filter_cons]

/-- The range query on a present customer appends to the output, in log
order, the interactions that `InRange` accepts. -/
theorem GetCustomerInteractionsInRange_eq (parse : Str → Option Int) (db : Database) (id : Nat)
    (c : Customer) (from_timestamp to_timestamp : Int) (out : List Interaction)
    (hc : CustomerMap.find db.customers_ id = some c) :
    Database.GetCustomerInteractionsInRange parse db id from_timestamp to_timestamp out
      = out ++ c.customer_interactions_.filter
          (fun i => i.InRange parse from_timestamp to_timestamp) := by
  simp only [Database.GetCustomerInteractionsInRange, Database.HasCustomer, hc, Option.isSome_some,
    Bool.not_true, Bool.false_eq_true, if_false]
  exact foldl_collect _ _ _

/-! ## Range query: claims -/

/-- C6: for a customer present in the collection whose interactions'
timestamps all parse, and bounds `from ≤ to`, the range query called with an
empty output yields exactly the interactions of the log, in log order, whose
parsed timestamp `t` satisfies `from ≤ t ≤ to`; in particular a log with
interactions at `T1 < T2 < T3` queried on `[T1, T2]` yields the first two
and not the third. -/
theorem range_query_correct (parse : Str → Option Int) (db : Database) (id : Nat)
    (c : Customer) (from_timestamp to_timestamp : Int)
    (hc : CustomerMap.find db.customers_ id = some c)
    (hparse : ∀ i ∈ c.customer_interactions_, (parse i.when_).isSome = true)
    (_hle : from_timestamp ≤ to_timestamp) :
    Database.GetCustomerInteractionsInRange parse db id from_timestamp to_timestamp []
        = c.customer_interactions_.filter (fun i =>
            match parse i.when_ with
            | some t => decide (from_timestamp ≤ t ∧ t ≤ to_timestamp)
            | none => false) ∧
      ∀ (i1 i2 i3 : Interaction) (T1 T2 T3 : Int),
        c.customer_interactions_ = [i1, i2, i3] →
        parse i1.when_ = some T1 → parse i2.when_ = some T2 → parse i3.when_ = some T3 →
        T1 < T2 → T2 < T3 →
        Database.GetCustomerInteractionsInRange parse db id T1 T2 [] = [i1, i2] := by
  constructor
  · rw [GetCustomerInteractionsInRange_eq parse db id c _ _ [] hc, List.nil_append]
    apply List.filter_congr
    intro i hi
    have := hparse i hi
    cases hp : parse i.when_ with
    | none => rw [hp] at this; simp at this
    | some t => simp [Interaction.InRange, Crm.to_timestamp, hp]
  · intro i1 i2 i3 T1 T2 T3 hlog h1 h2 h3 h12 h23
    rw [GetCustomerInteractionsInRange_eq parse db id c _ _ [] hc, List.nil_append, hlog]
    have e1 : i1.InRange parse T1 T2 = true := by
      simp [Interaction.InRange, Crm.to_timestamp, h1]; omega
    have e2 : i2.InRange parse T1 T2 = true := by
      simp [Interaction.InRange, Crm.to_timestamp, h2]; omega
    have e3 : i3.InRange parse T1 T2 = false := by
      simp [Interaction.InRange, Crm.to_timestamp, h3]; omega
    simp [List.filter_cons, e1, e2, e3]

theorem range_query_correct_witness :
    Database.GetCustomerInteractionsInRange (fun s => some (s.length : Int))
        ⟨none, true, [(1, ⟨1, ['A'], ['B'], [⟨['a'], ['x']⟩, ⟨['a', 'b'], ['y']⟩,
          ⟨['a', 'b', 'c'], ['z']⟩]⟩)]⟩ 1 1 2 []
        = (Customer.mk 1 ['A'] ['B'] [⟨['a'], ['x']⟩, ⟨['a', 'b'], ['y']⟩,
            ⟨['a', 'b', 'c'], ['z']⟩]).customer_interactions_.filter (fun i =>
            match (fun s : Str => some (s.length : Int)) i.when_ with
            | some t => decide ((1 : Int) ≤ t ∧ t ≤ 2)
            | none => false) ∧
      ∀ (i1 i2 i3 : Interaction) (T1 T2 T3 : Int),
        (Customer.mk 1 ['A'] ['B'] [⟨['a'], ['x']⟩, ⟨['a', 'b'], ['y']⟩,
            ⟨['a', 'b', 'c'], ['z']⟩]).customer_interactions_ = [i1, i2, i3] →
        (fun s : Str => some (s.length : Int)) i1.when_ = some T1 →
        (fun s : Str => some (s.length : Int)) i2.when_ = some T2 →
        (fun s : Str => some (s.length : Int)) i3.when_ = some T3 →
        T1 < T2 → T2 < T3 →
        Database.GetCustomerInteractionsInRange (fun s => some (s.length : Int))
          ⟨none, true, [(1, ⟨1, ['A'], ['B'], [⟨['a'], ['x']⟩, ⟨['a', 'b'], ['y']⟩,
            ⟨['a', 'b', 'c'], ['z']⟩]⟩)]⟩ 1 T1 T2 [] = [i1, i2] :=
  range_query_correct (fun s => some (s.length : Int))
    ⟨none, true, [(1, ⟨1, ['A'], ['B'], [⟨['a'], ['x']⟩, ⟨['a', 'b'], ['y']⟩,
      ⟨['a', 'b', 'c'], ['z']⟩]⟩)]⟩ 1 _ 1 2 rfl (by decide) (by decide)

/-- C7, on the code: `InRange` does not look at the result of
`to_timestamp`, so an interaction whose timestamp does not parse is compared
as timestamp 0 and is returned by every range that contains 0.  Here the
log holds one interaction with the unparsable timestamp `garbage` and one
at time 1000; the range `[-1, 1]` returns the unparsable one. -/
theorem unparsable_timestamp_matches_range_around_zero :
    let parse : Str → Option Int :=
      fun s => if s = ['1', '5', '/', '1', '2', '/', '2', '0', '2', '4', ' ', '1', '6', ':', '1', '5']
        then some 1000 else none
    let db : Database := ⟨none, true, [(1, ⟨1, ['A'], ['B'],
      [⟨['g', 'a', 'r', 'b', 'a', 'g', 'e'], ['n']⟩,
       ⟨['1', '5', '/', '1', '2', '/', '2', '0', '2', '4', ' ', '1', '6', ':', '1', '5'], ['m']⟩]⟩)]⟩
    parse ['g', 'a', 'r', 'b', 'a', 'g', 'e'] = none ∧
      Database.GetCustomerInteractionsInRange parse db 1 (-1) 1 []
        = [⟨['g', 'a', 'r', 'b', 'a', 'g', 'e'], ['n']⟩] := by
  decide

/-! ## The collection: further lemmas -/

namespace CustomerMap

theorem find_modify (m : CustomerMap) (k k' : Nat) (f : Customer → Customer) :
    find (modify m k f) k' = if k' = k then (find m k).map f else find m k' := by
  induction m with
  | nil => simp [modify, find]
  | cons e rest ih =>
    obtain ⟨k0, v0⟩ := e
    simp only [modify]
    by_cases h : k = k0
    · subst h
      by_cases hk : k' = k <;> simp [find, hk]
    · simp only [if_neg h, find, ih]
      by_cases hk : k' = k
      · subst hk
        simp [h]
      · simp [hk]

theorem keys_modify (m : CustomerMap) (k : Nat) (f : Customer → Customer) :
    keys (modify m k f) = keys m := by
  induction m with
  | nil => rfl
  | cons e rest ih =>
    obtain ⟨k0, v0⟩ := e
    simp only [modify]
    split
    · simp [keys]
    · simp only [keys, List.map_cons] at ih ⊢
      rw [ih]

theorem mem_modify (m : CustomerMap) (k : Nat) (f : Customer → Customer) (e : Nat × Customer)
    (he : e ∈ modify m k f) : e ∈ m ∨ ∃ v, (e.1, v) ∈ m ∧ e.2 = f v := by
  induction m with
  | nil => simp [modify] at he
  | cons e0 rest ih =>
    obtain ⟨k0, v0⟩ := e0
    simp only [modify] at he
    split at he
    · simp only [List.mem_cons] at he
      rcases he with rfl | he
      · exact Or.inr ⟨v0, by simp, rfl⟩
      · exact Or.inl (List.mem_cons_of_mem _ he)
    · simp only [List.mem_cons] at he
      rcases he with rfl | he
      · exact Or.inl (by simp)
      · rcases ih he with h | ⟨v, hv, hf⟩
        · exact Or.inl (List.mem_cons_of_mem _ h)
        · exact Or.inr ⟨v, List.mem_cons_of_mem _ hv, hf⟩

theorem erase_sublist (m : CustomerMap) (k : Nat) : List.Sublist (erase m k) m := by
  induction m with
  | nil => simp [erase]
  | cons e rest ih =>
    obtain ⟨k0, v0⟩ := e
    simp only [erase]
    split
    · exact List.sublist_cons_self _ _
    · exact List.Sublist.cons₂ _ ih

theorem find_erase_ne (m : CustomerMap) (k k' : Nat) (hne : k' ≠ k) :
    find (erase m k) k' = find m k' := by
  induction m with
  | nil => rfl
  | cons e rest ih =>
    obtain ⟨k0, v0⟩ := e
    simp only [erase]
    split
    · next h =>
      subst h
      simp [find, hne]
    · simp only [find, ih]

theorem find_erase_self (m : CustomerMap) (k : Nat) (hwf : WF m) : find (erase m k) k = none := by
  induction m with
  | nil => rfl
  | cons e rest ih =>
    obtain ⟨k0, v0⟩ := e
    simp only [erase]
    split
    · next h =>
      subst h
      rw [find_eq_none_iff]
      intro hmem
      have h1 := hwf.1
      simp only [keys, List.map_cons, List.pairwise_cons] at h1 hmem
      exact Nat.lt_irrefl _ (h1.1 k hmem)
    · next h =>
      simp only [find, if_neg h]
      exact ih (WF_tail _ _ hwf)

theorem WF_erase (m : CustomerMap) (k : Nat) (hwf : WF m) : WF (erase m k) := by
  have hs : List.Sublist (keys (erase m k)) (keys m) := (erase_sublist m k).map Prod.fst
  exact ⟨hwf.1.sublist hs, fun x hx => hwf.2 x (hs.subset hx)⟩

theorem WF_modify (m : CustomerMap) (k : Nat) (f : Customer → Customer) (hwf : WF m) :
    WF (modify m k f) := by
  unfold WF
  rw [keys_modify]
  exact hwf

theorem mem_insert (m : CustomerMap) (k : Nat) (v : Customer) (e : Nat × Customer)
    (he : e ∈ insert m k v) : e = (k, v) ∨ e ∈ m := by
  induction m with
  | nil => simpa [insert] using he
  | cons e0 rest ih =>
    obtain ⟨k0, v0⟩ := e0
    simp only [insert] at he
    split at he
    · simpa using he
    · split at he
      · exact Or.inr he
      · simp only [List.mem_cons] at he
        rcases he with rfl | he
        · exact Or.inr (by simp)
        · rcases ih he with h | h
          · exact Or.inl h
          · exact Or.inr (List.mem_cons_of_mem _ h)

theorem WF_insert (m : CustomerMap) (k : Nat) (v : Customer) (hwf : WF m) (hk : k < 2 ^ 32) :
    WF (insert m k v) := by
  induction m with
  | nil =>
    refine ⟨by simp [insert, keys], ?_⟩
    intro x hx
    simp only [insert, keys, List.map_cons, List.map_nil, List.mem_singleton] at hx
    rw [hx]
    exact hk
  | cons e0 rest ih =>
    obtain ⟨k0, v0⟩ := e0
    have h1 := hwf.1
    have h2 := hwf.2
    simp only [keys, List.map_cons, List.pairwise_cons, List.mem_cons] at h1 h2
    simp only [insert]
    split
    · next hlt =>
      refine ⟨?_, ?_⟩
      · simp only [keys, List.map_cons, List.pairwise_cons, List.mem_cons]
        refine ⟨?_, h1⟩
        rintro x (rfl | hx)
        · exact hlt
        · exact Nat.lt_trans hlt (h1.1 x hx)
      · intro x hx
        simp only [keys, List.map_cons, List.mem_cons] at hx
        rcases hx with rfl | hx
        · exact hk
        · exact h2 x hx
    · split
      · exact hwf
      · next hnlt hne =>
        have ih' := ih (WF_tail _ _ hwf)
        refine ⟨?_, ?_⟩
        · simp only [keys, List.map_cons, List.pairwise_cons]
          refine ⟨?_, ih'.1⟩
          intro x hx
          simp only [List.mem_map] at hx
          obtain ⟨e, he, rfl⟩ := hx
          rcases mem_insert rest k v e he with rfl | hmem
          · simp only
            omega
          · exact h1.1 e.1 (List.mem_map_of_mem Prod.fst hmem)
        · intro x hx
          simp only [keys, List.map_cons, List.mem_cons] at hx
          rcases hx with rfl | hx
          · exact h2 x (Or.inl rfl)
          · exact ih'.2 x hx

theorem KeysAreIds_insert (m : CustomerMap) (k : Nat) (v : Customer) (h : KeysAreIds m)
    (hv : v.id_ = k) : KeysAreIds (insert m k v) := by
  intro e he
  rcases mem_insert m k v e he with rfl | hmem
  · exact hv
  · exact h e hmem

theorem KeysAreIds_erase (m : CustomerMap) (k : Nat) (h : KeysAreIds m) :
    KeysAreIds (erase m k) :=
  fun e he => h e ((erase_sublist m k).subset he)

theorem KeysAreIds_modify (m : CustomerMap) (k : Nat) (f : Customer → Customer)
    (h : KeysAreIds m) (hf : ∀ c, (f c).id_ = c.id_) : KeysAreIds (modify m k f) := by
  intro e he
  rcases mem_modify m k f e he with hmem | ⟨v, hv, hfv⟩
  · exact h e hmem
  · rw [hfv, hf]
    exact h (e.1, v) hv

/-- In a well-formed collection the entries are exactly the successful
lookups. -/
theorem mem_iff_find (m : CustomerMap) (hwf : WF m) (k : Nat) (c : Customer) :
    (k, c) ∈ m ↔ find m k = some c := by
  constructor
  · intro hmem
    induction m with
    | nil => simp at hmem
    | cons e0 rest ih =>
      obtain ⟨k0, v0⟩ := e0
      simp only [List.mem_cons, Prod.mk.injEq] at hmem
      rcases hmem with ⟨rfl, rfl⟩ | hmem
      · simp [find]
      · have h1 := hwf.1
        simp only [keys, List.map_cons, List.pairwise_cons] at h1
        have hlt := h1.1 k (List.mem_map_of_mem Prod.fst hmem)
        simp only [find, if_neg (Nat.ne_of_gt hlt)]
        exact ih (WF_tail _ _ hwf) hmem
  · exact find_mem m k c

end CustomerMap

/-! ## Duplicate ids in the file -/

theorem foldl_loadStep_other_ids (ls : List Str) (k : Nat) :
    ∀ m0 : CustomerMap,
      (∀ l ∈ ls, ∀ c, decodeLine l = some c → c.id_ ≠ k) →
      CustomerMap.find (ls.foldl loadStep m0) k = CustomerMap.find m0 k := by
  induction ls with
  | nil => intro m0 _; rfl
  | cons l rest ih =>
    intro m0 h
    rw [List.foldl_cons, ih _ (fun x hx => h x (List.mem_cons_of_mem _ hx)), find_loadStep]
    have hne := h l (by simp) _ (decodeLine_eq l)
    rw [if_neg]
    rintro ⟨_, hk⟩
    exact hne hk.symm

/-- C11: when a line of the file decodes to a customer with id `n > 0` and no
later line decodes to that id, then after `LoadFromFile` (which returns
true) the collection maps `n` to exactly the customer decoded from that
line, whatever earlier lines with the same id, or the collection before the
load, held for `n`. -/
theorem load_last_line_wins (content : Str) (w : Bool) (m : CustomerMap)
    (before after : List Str) (line : Str) (c : Customer)
    (hlines : fileLines content = before ++ line :: after)
    (hdec : decodeLine line = some c) (hpos : c.id_ > 0)
    (hlast : ∀ l ∈ after, ∀ c', decodeLine l = some c' → c'.id_ ≠ c.id_) :
    ∃ db, Database.LoadFromFile ⟨some content, w, m⟩ = some (true, db) ∧
      CustomerMap.find db.customers_ c.id_ = some c := by
  refine ⟨_, Database.LoadFromFile_eq content w m, ?_⟩
  simp only
  rw [hlines, List.foldl_append, List.foldl_cons, foldl_loadStep_other_ids _ _ _ hlast,
    find_loadStep]
  rw [decodeLine_eq, Option.some.injEq] at hdec
  rw [hdec, if_pos]
  exact ⟨by simpa [Customer.IsValid, INVALID_CUSTOMER_ID] using hpos, rfl⟩

theorem load_last_line_wins_witness :
    ∃ db, Database.LoadFromFile
        ⟨some ['1', '\t', 'A', '\t', 'B', '\t', 'w', '\t', 'n', '\n', '1', '\t', 'C', '\t', 'D', '\n'],
          true, []⟩ = some (true, db) ∧
      CustomerMap.find db.customers_ (Customer.mk 1 ['C'] ['D'] []).id_
        = some (Customer.mk 1 ['C'] ['D'] []) :=
  load_last_line_wins
    ['1', '\t', 'A', '\t', 'B', '\t', 'w', '\t', 'n', '\n', '1', '\t', 'C', '\t', 'D', '\n'] true []
    [['1', '\t', 'A', '\t', 'B', '\t', 'w', '\t', 'n']] [] ['1', '\t', 'C', '\t', 'D']
    ⟨1, ['C'], ['D'], []⟩ (by decide) (by decide) (by decide) (by decide)

/-! ## Searching customers -/

theorem foldl_collect_ids (p : Customer → Bool) (l : CustomerMap) :
    ∀ found : List Nat,
      l.foldl (fun found e => if p e.2 then found ++ [e.2.id_] else found) found
        = found ++ (l.filter (fun e => p e.2)).map (fun e => e.2.id_) := by
  induction l with
  | nil => intro found; simp
  | cons e rest ih =>
    intro found
    rw [List.foldl_cons, ih]
    by_cases h : p e.2 = true
    · simp [h, List.filter_cons]
    · simp [h, List.filter_cons]

/-- The scan of `FindCustomers` collects the ids of the customers that meet
the search criterion, in iteration order. -/
theorem FindCustomers_scan (crm : CRM) (id name surname : Str) (found_customers : List Nat)
    (hid : stoull id = none) :
    (crm.FindCustomers id name surname found_customers).2
      = found_customers ++ (crm.database_.customers_.filter
          (fun e => matchesAttributes name surname e.2)).map (fun e => e.2.id_) := by
  have hstep : (fun (found : List Nat) (customer_entry : Nat × Customer) =>
        let customer := customer_entry.2
        if (!name.isEmpty && !surname.isEmpty) = true then
          if customer.name_ = name ∧ customer.surname_ = surname then found ++ [customer.id_]
          else found
        else if (!name.isEmpty) = true then
          if customer.name_ = name then found ++ [customer.id_] else found
        else if (!surname.isEmpty) = true then
          if customer.surname_ = surname then found ++ [customer.id_] else found
        else found)
      = (fun found e => if matchesAttributes name surname e.2 then found ++ [e.2.id_]
          else found) := by
    funext found e
    cases hn : name.isEmpty <;> cases hs : surname.isEmpty <;>
      simp [matchesAttributes, hn, hs]
  simp only [CRM.FindCustomers, try_convert, hid, Bool.false_eq_true, if_false]
  rw [hstep]
  exact foldl_collect_ids _ _ _

/-- C13: when the id string does not parse, `FindCustomers` called with an
empty output on a well-formed collection whose customers are stored under
their own ids yields the keys of the customers meeting the criterion
(equal to every non-empty one of name and surname, at least one of them
non-empty) in iteration order; so the result is strictly ascending, holds
exactly the ids of the matching customers, and is empty when name and
surname are both empty.  On customers `(1, Ann, Lee)` and `(2, Ann, Doe)`
name `Ann` gives `[1, 2]` and name `Ann`, surname `Doe` gives `[2]`. -/
theorem FindCustomers_by_attributes (crm : CRM) (id name surname : Str)
    (hid : stoull id = none) (hwf : crm.database_.customers_.WF)
    (hkeys : crm.database_.customers_.KeysAreIds) :
    (crm.FindCustomers id name surname []).2
        = (crm.database_.customers_.filter
            (fun e => matchesAttributes name surname e.2)).map Prod.fst ∧
      (crm.FindCustomers id name surname []).2.Pairwise (fun a b => a < b) ∧
      (∀ k, k ∈ (crm.FindCustomers id name surname []).2 ↔
        ∃ c, CustomerMap.find crm.database_.customers_ k = some c ∧
          (name ≠ [] ∨ surname ≠ []) ∧ (name ≠ [] → c.name_ = name) ∧
          (surname ≠ [] → c.surname_ = surname)) ∧
      (name = [] → surname = [] → (crm.FindCustomers id name surname []).2 = []) ∧
      ∀ (f : Option Str) (w : Bool) (l1 l2 : List Interaction),
        (CRM.FindCustomers
            ⟨⟨f, w, [(1, ⟨1, ['A', 'n', 'n'], ['L', 'e', 'e'], l1⟩),
              (2, ⟨2, ['A', 'n', 'n'], ['D', 'o', 'e'], l2⟩)]⟩⟩
            id ['A', 'n', 'n'] [] []).2 = [1, 2] ∧
        (CRM.FindCustomers
            ⟨⟨f, w, [(1, ⟨1, ['A', 'n', 'n'], ['L', 'e', 'e'], l1⟩),
              (2, ⟨2, ['A', 'n', 'n'], ['D', 'o', 'e'], l2⟩)]⟩⟩
            id ['A', 'n', 'n'] ['D', 'o', 'e'] []).2 = [2] := by
  have heq : (crm.FindCustomers id name surname []).2
      = (crm.database_.customers_.filter
          (fun e => matchesAttributes name surname e.2)).map Prod.fst := by
    rw [FindCustomers_scan crm id name surname [] hid, List.nil_append]
    apply List.map_congr_left
    intro e he
    exact hkeys e (List.mem_of_mem_filter he)
  refine ⟨heq, ?_, ?_, ?_, ?_⟩
  · rw [heq]
    exact hwf.1.sublist ((List.filter_sublist _).map Prod.fst)
  · intro k
    rw [heq]
    simp only [List.mem_map, List.mem_filter]
    constructor
    · rintro ⟨e, ⟨he, hm⟩, rfl⟩
      refine ⟨e.2, (CustomerMap.mem_iff_find _ hwf _ _).mp he, ?_⟩
      simp only [matchesAttributes, Bool.and_eq_true, Bool.or_eq_true, Bool.not_eq_true',
        List.isEmpty_eq_false, List.isEmpty_iff, decide_eq_true_eq] at hm
      obtain ⟨⟨h1, h2⟩, h3⟩ := hm
      exact ⟨h1, fun hn => h2.resolve_left hn, fun hs => h3.resolve_left hs⟩
    · rintro ⟨c, hc, h1, h2, h3⟩
      refine ⟨(k, c), ⟨(CustomerMap.mem_iff_find _ hwf _ _).mpr hc, ?_⟩, rfl⟩
      simp only [matchesAttributes, Bool.and_eq_true, Bool.or_eq_true, Bool.not_eq_true',
        List.isEmpty_eq_false, List.isEmpty_iff, decide_eq_true_eq]
      refine ⟨⟨h1, ?_⟩, ?_⟩
      · by_cases hn : name = []
        · exact Or.inl hn
        · exact Or.inr (h2 hn)
      · by_cases hs : surname = []
        · exact Or.inl hs
        · exact Or.inr (h3 hs)
  · intro hn hs
    rw [heq, hn, hs]
    simp [matchesAttributes]
  · intro f w l1 l2
    constructor
    · rw [FindCustomers_scan _ id _ _ [] hid]
      simp [matchesAttributes, List.filter_cons]
    · rw [FindCustomers_scan _ id _ _ [] hid]
      simp [matchesAttributes, List.filter_cons]

theorem FindCustomers_by_attributes_witness :
    (CRM.FindCustomers
        ⟨⟨none, true, [(1, ⟨1, ['A', 'n', 'n'], ['L', 'e', 'e'], []⟩),
          (2, ⟨2, ['A', 'n', 'n'], ['D', 'o', 'e'], []⟩), (5, ⟨5, ['B', 'o'], ['D', 'o', 'e'], []⟩)]⟩⟩
        [] [] ['D', 'o', 'e'] []).2
      = ((CRM.mk ⟨none, true, [(1, ⟨1, ['A', 'n', 'n'], ['L', 'e', 'e'], []⟩),
          (2, ⟨2, ['A', 'n', 'n'], ['D', 'o', 'e'], []⟩),
          (5, ⟨5, ['B', 'o'], ['D', 'o', 'e'], []⟩)]⟩).database_.customers_.filter
            (fun e => matchesAttributes [] ['D', 'o', 'e'] e.2)).map Prod.fst :=
  (FindCustomers_by_attributes
    ⟨⟨none, true, [(1, ⟨1, ['A', 'n', 'n'], ['L', 'e', 'e'], []⟩),
      (2, ⟨2, ['A', 'n', 'n'], ['D', 'o', 'e'], []⟩), (5, ⟨5, ['B', 'o'], ['D', 'o', 'e'], []⟩)]⟩⟩
    [] [] ['D', 'o', 'e'] (by decide) (by decide) (by decide)).1

/-! ## Update, removal and interaction append -/

namespace Database

theorem HasCustomer_iff (db : Database) (id : Nat) :
    db.HasCustomer id = true ↔ id ∈ CustomerMap.keys db.customers_ :=
  CustomerMap.find_isSome_iff _ _

theorem UpdateClientInfo_absent (db : Database) (id : Nat) (name surname : Str)
    (h : db.HasCustomer id = false) : db.UpdateClientInfo id name surname = (false, db) := by
  simp [UpdateClientInfo, h]

theorem UpdateClientInfo_present (db : Database) (id : Nat) (name surname : Str)
    (h : db.HasCustomer id = true) :
    db.UpdateClientInfo id name surname
      = (true, SaveDatabase { db with
          customers_ := CustomerMap.modify db.customers_ id
            (fun c => { c with name_ := name, surname_ := surname }) }) := by
  simp [UpdateClientInfo, h]

theorem RemoveCustomer_absent (db : Database) (id : Nat) (h : db.HasCustomer id = false) :
    db.RemoveCustomer id = (false, db) := by
  simp [RemoveCustomer, h]

theorem RemoveCustomer_present (db : Database) (id : Nat) (h : db.HasCustomer id = true) :
    db.RemoveCustomer id
      = (true, SaveDatabase { db with customers_ := CustomerMap.erase db.customers_ id }) := by
  simp [RemoveCustomer, h]

theorem AddInteraction_absent (db : Database) (id : Nat) (when_ what_ : Str)
    (h : db.HasCustomer id = false) : db.AddInteraction id when_ what_ = (false, db) := by
  simp [AddInteraction, h]

theorem AddInteraction_present (db : Database) (id : Nat) (when_ what_ : Str)
    (h : db.HasCustomer id = true) :
    db.AddInteraction id when_ what_
      = (true, SaveDatabase { db with
          customers_ := CustomerMap.modify db.customers_ id (fun c =>
            { c with
              customer_interactions_ := c.customer_interactions_ ++ [Interaction.mk when_ what_] }) })
      := by
  simp [AddInteraction, h]

end Database

/-- C14: `UpdateClientInfo` returns true exactly when `id` is a key of the
collection; when it returns true the customer stored under `id` afterwards
has the given name and surname, and when it returns false the store is
unchanged. -/
theorem UpdateClientInfo_result (db : Database) (id : Nat) (name surname : Str) :
    ((db.UpdateClientInfo id name surname).1 = true ↔ id ∈ CustomerMap.keys db.customers_) ∧
      ((db.UpdateClientInfo id name surname).1 = true →
        ∃ c, CustomerMap.find (db.UpdateClientInfo id name surname).2.customers_ id = some c ∧
          c.name_ = name ∧ c.surname_ = surname) ∧
      ((db.UpdateClientInfo id name surname).1 = false →
        (db.UpdateClientInfo id name surname).2 = db) := by
  cases h : db.HasCustomer id with
  | false =>
    rw [Database.UpdateClientInfo_absent db id name surname h]
    refine ⟨?_, ?_, fun _ => rfl⟩
    · rw [← Database.HasCustomer_iff, h]
    · intro hf
      exact absurd hf (by simp)
  | true =>
    rw [Database.UpdateClientInfo_present db id name surname h]
    refine ⟨?_, ?_, ?_⟩
    · rw [← Database.HasCustomer_iff, h]
    · intro _
      simp only [Database.customers_SaveDatabase, CustomerMap.find_modify, if_true]
      simp only [Database.HasCustomer] at h
      obtain ⟨c, hc⟩ := Option.isSome_iff_exists.mp h
      exact ⟨_, by rw [hc]; rfl, rfl, rfl⟩
    · intro hf
      exact absurd hf (by simp)

/-- C15: on a well-formed collection `RemoveCustomer` returns true exactly
when `id` is a key; when it returns true `id` is no longer a key afterwards
and the lookup of every other key is unchanged, and when it returns false
the store is unchanged. -/
theorem RemoveCustomer_result (db : Database) (id : Nat) (hwf : db.customers_.WF) :
    ((db.RemoveCustomer id).1 = true ↔ id ∈ CustomerMap.keys db.customers_) ∧
      ((db.RemoveCustomer id).1 = true →
        id ∉ CustomerMap.keys (db.RemoveCustomer id).2.customers_ ∧
        ∀ k, k ≠ id →
          CustomerMap.find (db.RemoveCustomer id).2.customers_ k
            = CustomerMap.find db.customers_ k) ∧
      ((db.RemoveCustomer id).1 = false → (db.RemoveCustomer id).2 = db) := by
  cases h : db.HasCustomer id with
  | false =>
    rw [Database.RemoveCustomer_absent db id h]
    refine ⟨?_, ?_, fun _ => rfl⟩
    · rw [← Database.HasCustomer_iff, h]
    · intro hf
      exact absurd hf (by simp)
  | true =>
    rw [Database.RemoveCustomer_present db id h]
    refine ⟨?_, ?_, ?_⟩
    · rw [← Database.HasCustomer_iff, h]
    · intro _
      simp only [Database.customers_SaveDatabase]
      refine ⟨?_, fun k hk => CustomerMap.find_erase_ne _ _ _ hk⟩
      rw [← CustomerMap.find_eq_none_iff]
      exact CustomerMap.find_erase_self _ _ hwf
    · intro hf
      exact absurd hf (by simp)

theorem RemoveCustomer_result_witness :
    ((Database.RemoveCustomer
        ⟨none, true, [(1, ⟨1, ['A'], ['B'], []⟩), (3, ⟨3, ['C'], ['D'], []⟩)]⟩ 3).1 = true ↔
      3 ∈ CustomerMap.keys
        (Database.mk none true [(1, ⟨1, ['A'], ['B'], []⟩), (3, ⟨3, ['C'], ['D'], []⟩)]).customers_) :=
  (RemoveCustomer_result ⟨none, true, [(1, ⟨1, ['A'], ['B'], []⟩), (3, ⟨3, ['C'], ['D'], []⟩)]⟩ 3
    (by decide)).1

/-- C16: `AddInteraction` returns true exactly when `id` is a key of the
collection; the customer found under `id` before the call is found
afterwards with the same id, name and surname and with its previous log
followed by the one new interaction; the lookup of every other key is
unchanged; and when it returns false the store is unchanged. -/
theorem AddInteraction_result (db : Database) (id : Nat) (when_ what_ : Str) :
    ((db.AddInteraction id when_ what_).1 = true ↔ id ∈ CustomerMap.keys db.customers_) ∧
      (∀ c, CustomerMap.find db.customers_ id = some c →
        (db.AddInteraction id when_ what_).1 = true ∧
        CustomerMap.find (db.AddInteraction id when_ what_).2.customers_ id
          = some ⟨c.id_, c.name_, c.surname_, c.customer_interactions_ ++ [⟨when_, what_⟩]⟩) ∧
      (∀ k, k ≠ id →
        CustomerMap.find (db.AddInteraction id when_ what_).2.customers_ k
          = CustomerMap.find db.customers_ k) ∧
      ((db.AddInteraction id when_ what_).1 = false →
        (db.AddInteraction id when_ what_).2 = db) := by
  cases h : db.HasCustomer id with
  | false =>
    rw [Database.AddInteraction_absent db id when_ what_ h]
    refine ⟨?_, ?_, fun _ _ => rfl, fun _ => rfl⟩
    · rw [← Database.HasCustomer_iff, h]
    · intro c hc
      simp [Database.HasCustomer, hc] at h
  | true =>
    rw [Database.AddInteraction_present db id when_ what_ h]
    refine ⟨?_, ?_, ?_, ?_⟩
    · rw [← Database.HasCustomer_iff, h]
    · intro c hc
      refine ⟨rfl, ?_⟩
      simp only [Database.customers_SaveDatabase, CustomerMap.find_modify, if_true, hc]
      rfl
    · intro k hk
      simp only [Database.customers_SaveDatabase, CustomerMap.find_modify, if_neg hk]
    · intro hf
      exact absurd hf (by simp)

/-- C18: `HasCustomer(name, surname)` is true exactly when some customer of
the collection has that name and that surname, both in the same customer;
when every customer with that name has another surname it is false. -/
theorem HasCustomerNamed_iff (db : Database) (name surname : Str) :
    (db.HasCustomerNamed name surname = true ↔
        ∃ e ∈ db.customers_, e.2.name_ = name ∧ e.2.surname_ = surname) ∧
      ((∀ e ∈ db.customers_, e.2.name_ = name → e.2.surname_ ≠ surname) →
        db.HasCustomerNamed name surname = false) := by
  have hiff : db.HasCustomerNamed name surname = true ↔
      ∃ e ∈ db.customers_, e.2.name_ = name ∧ e.2.surname_ = surname := by
    simp [Database.HasCustomerNamed, List.any_eq_true]
  refine ⟨hiff, ?_⟩
  intro hno
  cases hb : db.HasCustomerNamed name surname with
  | false => rfl
  | true =>
    obtain ⟨e, he, hn, hs⟩ := hiff.mp hb
    exact absurd hs (hno e he hn)

/-! ## The file after a mutation -/

namespace Database

theorem fileText_flatten (m : CustomerMap) :
    fileText m = (m.map (fun e => Customer.write [] e.2)).flatten := by
  rw [fileText_eq, List.flatMap_def]
  congr 1
  apply List.map_congr_left
  intro e _
  rw [Customer_write_eq, List.nil_append]

theorem SaveDatabase_consistent (db : Database) (hw : db.writable = true) :
    db.SaveDatabase.FileConsistent := by
  simp [SaveDatabase, hw, FileConsistent, fileText_flatten]

theorem ids_ascending (m : CustomerMap) (hwf : m.WF) (hkeys : m.KeysAreIds) :
    (m.map (fun e => e.2.id_)).Pairwise (fun a b => a < b) := by
  have e : m.map (fun e => e.2.id_) = CustomerMap.keys m :=
    List.map_congr_left (fun x hx => hkeys x hx)
  rw [e]
  exact hwf.1

theorem AddCustomer_id_lt (db : Database) (name surname : Str) :
    (db.AddCustomer name surname).1 < 2 ^ 32 :=
  Nat.mod_lt _ (by norm_num)

end Database

/-- C17: with a writable backing file, on a well-formed collection whose
customers are stored under their own ids, after `AddCustomer` and after
every `UpdateClientInfo`, `RemoveCustomer` and `AddInteraction` that returns
true, the file holds exactly the encoded lines of the customers of the
in-memory collection, in iteration order, which is ascending id order;
the previous content of the file plays no part. -/
theorem mutations_leave_file_consistent (db : Database) (hw : db.writable = true)
    (hwf : db.customers_.WF) (hkeys : db.customers_.KeysAreIds) :
    (∀ name surname,
        (db.AddCustomer name surname).2.FileConsistent ∧
        ((db.AddCustomer name surname).2.customers_.map (fun e => e.2.id_)).Pairwise
          (fun a b => a < b)) ∧
      (∀ id name surname, (db.UpdateClientInfo id name surname).1 = true →
        (db.UpdateClientInfo id name surname).2.FileConsistent ∧
        ((db.UpdateClientInfo id name surname).2.customers_.map (fun e => e.2.id_)).Pairwise
          (fun a b => a < b)) ∧
      (∀ id, (db.RemoveCustomer id).1 = true →
        (db.RemoveCustomer id).2.FileConsistent ∧
        ((db.RemoveCustomer id).2.customers_.map (fun e => e.2.id_)).Pairwise
          (fun a b => a < b)) ∧
      (∀ id when_ what_, (db.AddInteraction id when_ what_).1 = true →
        (db.AddInteraction id when_ what_).2.FileConsistent ∧
        ((db.AddInteraction id when_ what_).2.customers_.map (fun e => e.2.id_)).Pairwise
          (fun a b => a < b)) := by
  refine ⟨?_, ?_, ?_, ?_⟩
  · intro name surname
    constructor
    · exact Database.SaveDatabase_consistent _ hw
    · rw [Database.customers_AddCustomer]
      exact Database.ids_ascending _
        (CustomerMap.WF_insert _ _ _ hwf (Database.AddCustomer_id_lt db name surname))
        (CustomerMap.KeysAreIds_insert _ _ _ hkeys rfl)
  · intro id name surname ht
    have h : db.HasCustomer id = true := by
      cases hh : db.HasCustomer id with
      | true => rfl
      | false =>
        rw [Database.UpdateClientInfo_absent db id name surname hh] at ht
        exact absurd ht (by simp)
    rw [Database.UpdateClientInfo_present db id name surname h]
    constructor
    · exact Database.SaveDatabase_consistent _ hw
    · rw [Database.customers_SaveDatabase]
      exact Database.ids_ascending _ (CustomerMap.WF_modify _ _ _ hwf)
        (CustomerMap.KeysAreIds_modify _ _ _ hkeys (fun _ => rfl))
  · intro id ht
    have h : db.HasCustomer id = true := by
      cases hh : db.HasCustomer id with
      | true => rfl
      | false =>
        rw [Database.RemoveCustomer_absent db id hh] at ht
        exact absurd ht (by simp)
    rw [Database.RemoveCustomer_present db id h]
    constructor
    · exact Database.SaveDatabase_consistent _ hw
    · rw [Database.customers_SaveDatabase]
      exact Database.ids_ascending _ (CustomerMap.WF_erase _ _ hwf)
        (CustomerMap.KeysAreIds_erase _ _ hkeys)
  · intro id when_ what_ ht
    have h : db.HasCustomer id = true := by
      cases hh : db.HasCustomer id with
      | true => rfl
      | false =>
        rw [Database.AddInteraction_absent db id when_ what_ hh] at ht
        exact absurd ht (by simp)
    rw [Database.AddInteraction_present db id when_ what_ h]
    constructor
    · exact Database.SaveDatabase_consistent _ hw
    · rw [Database.customers_SaveDatabase]
      exact Database.ids_ascending _ (CustomerMap.WF_modify _ _ _ hwf)
        (CustomerMap.KeysAreIds_modify _ _ _ hkeys (fun _ => rfl))

theorem mutations_leave_file_consistent_witness :
    (Database.AddInteraction
        ⟨some ['o', 'l', 'd'], true, [(1, ⟨1, ['A'], ['B'], []⟩), (3, ⟨3, ['C'], ['D'], []⟩)]⟩
        1 ['w'] ['n']).2.FileConsistent ∧
      ((Database.AddInteraction
        ⟨some ['o', 'l', 'd'], true, [(1, ⟨1, ['A'], ['B'], []⟩), (3, ⟨3, ['C'], ['D'], []⟩)]⟩
        1 ['w'] ['n']).2.customers_.map (fun e => e.2.id_)).Pairwise (fun a b => a < b) :=
  (mutations_leave_file_consistent
    ⟨some ['o', 'l', 'd'], true, [(1, ⟨1, ['A'], ['B'], []⟩), (3, ⟨3, ['C'], ['D'], []⟩)]⟩
    rfl (by decide) (by decide)).2.2.2 1 ['w'] ['n'] (by decide)

/-! ## Adding customers and name uniqueness -/

/-- While every key is below `2^32 - 1` the id that `AddCustomer` assigns is
not 0 and is greater than every key of a well-formed collection. -/
theorem AddCustomer_id_fresh (db : Database) (name surname : Str) (hwf : db.customers_.WF)
    (hbound : ∀ k ∈ CustomerMap.keys db.customers_, k < 2 ^ 32 - 1) :
    (db.AddCustomer name surname).1 ≠ 0 ∧
      ∀ k ∈ CustomerMap.keys db.customers_, k < (db.AddCustomer name surname).1 := by
  simp only [Database.AddCustomer, Database.GetHighestCustomerID]
  cases hl : db.customers_.getLast? with
  | none =>
    rw [List.getLast?_eq_none_iff] at hl
    rw [hl]
    exact ⟨by decide, fun k hk => by simp [CustomerMap.keys] at hk⟩
  | some e =>
    have hmem := CustomerMap.getLast_mem_keys _ e hl
    have hb := hbound _ hmem
    have hmax := CustomerMap.le_getLast _ hwf e hl
    simp only
    rw [Nat.mod_eq_of_lt (by omega)]
    exact ⟨by omega, fun k hk => Nat.lt_succ_of_le (hmax k hk)⟩

/-- The collection after `AddCustomer` with a fresh id: the new customer is
found under the new id and every other lookup is unchanged. -/
theorem AddCustomer_inserts (db : Database) (name surname : Str) (hwf : db.customers_.WF)
    (hbound : ∀ k ∈ CustomerMap.keys db.customers_, k < 2 ^ 32 - 1) :
    (db.AddCustomer name surname).1 ∉ CustomerMap.keys db.customers_ ∧
      CustomerMap.find (db.AddCustomer name surname).2.customers_ (db.AddCustomer name surname).1
        = some ⟨(db.AddCustomer name surname).1, name, surname, []⟩ ∧
      ∀ k, k ≠ (db.AddCustomer name surname).1 →
        CustomerMap.find (db.AddCustomer name surname).2.customers_ k
          = CustomerMap.find db.customers_ k := by
  have hfresh := (AddCustomer_id_fresh db name surname hwf hbound).2
  have hnot : (db.AddCustomer name surname).1 ∉ CustomerMap.keys db.customers_ :=
    fun h => Nat.lt_irrefl _ (hfresh _ h)
  refine ⟨hnot, ?_, ?_⟩
  · rw [Database.customers_AddCustomer]
    exact CustomerMap.find_insert_self _ _ _ ((CustomerMap.find_eq_none_iff _ _).mpr hnot)
  · intro k hk
    rw [Database.customers_AddCustomer]
    exact CustomerMap.find_insert_ne _ _ _ _ hk

/-- C19: `CRM::AddCustomer` returns false and leaves the store unchanged
when some customer already has that name and that surname; otherwise, on a
well-formed collection whose keys are all below `2^32 - 1`, it returns true
and the collection gains exactly one customer, under an id that was not a
key, with that name, that surname and an empty log, every other lookup
being unchanged. -/
theorem CRM_AddCustomer_result (crm : CRM) (name surname : Str) :
    ((∃ e ∈ crm.database_.customers_, e.2.name_ = name ∧ e.2.surname_ = surname) →
        crm.AddCustomer name surname = (false, crm)) ∧
      (crm.database_.customers_.WF →
        (∀ k ∈ CustomerMap.keys crm.database_.customers_, k < 2 ^ 32 - 1) →
        (¬ ∃ e ∈ crm.database_.customers_, e.2.name_ = name ∧ e.2.surname_ = surname) →
        (crm.AddCustomer name surname).1 = true ∧
        ∃ id, id ∉ CustomerMap.keys crm.database_.customers_ ∧
          CustomerMap.find (crm.AddCustomer name surname).2.database_.customers_ id
            = some ⟨id, name, surname, []⟩ ∧
          ∀ k, k ≠ id →
            CustomerMap.find (crm.AddCustomer name surname).2.database_.customers_ k
              = CustomerMap.find crm.database_.customers_ k) := by
  have hiff : crm.database_.HasCustomerNamed name surname = true ↔
      ∃ e ∈ crm.database_.customers_, e.2.name_ = name ∧ e.2.surname_ = surname := by
    simp [Database.HasCustomerNamed, List.any_eq_true]
  constructor
  · intro hex
    simp [CRM.AddCustomer, hiff.mpr hex]
  · intro hwf hbound hno
    have hfalse : crm.database_.HasCustomerNamed name surname = false := by
      cases hb : crm.database_.HasCustomerNamed name surname with
      | false => rfl
      | true => exact absurd (hiff.mp hb) hno
    have hid := (AddCustomer_id_fresh crm.database_ name surname hwf hbound).1
    have hins := AddCustomer_inserts crm.database_ name surname hwf hbound
    simp only [CRM.AddCustomer, hfalse, Bool.false_eq_true, if_false, INVALID_CUSTOMER_ID]
    exact ⟨by simpa using hid, _, hins⟩

theorem CRM_AddCustomer_result_witness :
    (CRM.AddCustomer ⟨⟨none, true, [(1, ⟨1, ['A'], ['B'], []⟩)]⟩⟩ ['A'] ['C']).1 = true ∧
      ∃ id, id ∉ CustomerMap.keys
          (CRM.mk ⟨none, true, [(1, ⟨1, ['A'], ['B'], []⟩)]⟩).database_.customers_ ∧
        CustomerMap.find
          (CRM.AddCustomer ⟨⟨none, true, [(1, ⟨1, ['A'], ['B'], []⟩)]⟩⟩ ['A']
            ['C']).2.database_.customers_ id = some ⟨id, ['A'], ['C'], []⟩ ∧
        ∀ k, k ≠ id →
          CustomerMap.find
            (CRM.AddCustomer ⟨⟨none, true, [(1, ⟨1, ['A'], ['B'], []⟩)]⟩⟩ ['A']
              ['C']).2.database_.customers_ k
            = CustomerMap.find
              (CRM.mk ⟨none, true, [(1, ⟨1, ['A'], ['B'], []⟩)]⟩).database_.customers_ k :=
  (CRM_AddCustomer_result ⟨⟨none, true, [(1, ⟨1, ['A'], ['B'], []⟩)]⟩⟩ ['A'] ['C']).2
    (by decide) (by decide) (by decide)

/-- C20: `Database::AddCustomer` checks nothing: on a well-formed collection
whose keys are all below `2^32 - 1` and which already holds a customer with
the given name and surname under key `k`, the call returns an id different
from `k`, and afterwards both the old customer under `k` and a new customer
with the same name and surname under the new id are in the collection. -/
theorem AddCustomer_allows_duplicate_names (db : Database) (name surname : Str) (k : Nat)
    (c : Customer) (hwf : db.customers_.WF)
    (hbound : ∀ k ∈ CustomerMap.keys db.customers_, k < 2 ^ 32 - 1)
    (hc : CustomerMap.find db.customers_ k = some c)
    (hname : c.name_ = name) (hsur : c.surname_ = surname) :
    (db.AddCustomer name surname).1 ≠ k ∧
      CustomerMap.find (db.AddCustomer name surname).2.customers_ k = some c ∧
      c.name_ = name ∧ c.surname_ = surname ∧
      CustomerMap.find (db.AddCustomer name surname).2.customers_ (db.AddCustomer name surname).1
        = some ⟨(db.AddCustomer name surname).1, name, surname, []⟩ := by
  obtain ⟨hnot, hnew, hother⟩ := AddCustomer_inserts db name surname hwf hbound
  have hk : k ∈ CustomerMap.keys db.customers_ := by
    rw [← CustomerMap.find_isSome_iff, hc]
    rfl
  have hne : (db.AddCustomer name surname).1 ≠ k := fun h => hnot (h ▸ hk)
  exact ⟨hne, by rw [hother k (Ne.symm hne), hc], hname, hsur, hnew⟩

theorem AddCustomer_allows_duplicate_names_witness :
    (Database.AddCustomer ⟨none, true, [(1, ⟨1, ['A'], ['B'], []⟩)]⟩ ['A'] ['B']).1 ≠ 1 ∧
      CustomerMap.find
        (Database.AddCustomer ⟨none, true, [(1, ⟨1, ['A'], ['B'], []⟩)]⟩ ['A'] ['B']).2.customers_ 1
        = some ⟨1, ['A'], ['B'], []⟩ ∧
      (Customer.mk 1 ['A'] ['B'] []).name_ = ['A'] ∧
      (Customer.mk 1 ['A'] ['B'] []).surname_ = ['B'] ∧
      CustomerMap.find
        (Database.AddCustomer ⟨none, true, [(1, ⟨1, ['A'], ['B'], []⟩)]⟩ ['A'] ['B']).2.customers_
        (Database.AddCustomer ⟨none, true, [(1, ⟨1, ['A'], ['B'], []⟩)]⟩ ['A'] ['B']).1
        = some ⟨(Database.AddCustomer ⟨none, true, [(1, ⟨1, ['A'], ['B'], []⟩)]⟩ ['A'] ['B']).1,
            ['A'], ['B'], []⟩ :=
  AddCustomer_allows_duplicate_names ⟨none, true, [(1, ⟨1, ['A'], ['B'], []⟩)]⟩ ['A'] ['B'] 1
    ⟨1, ['A'], ['B'], []⟩ (by decide) (by decide) (by decide) rfl rfl

/-! ## Lookup, absent customers, frames and inverted ranges -/

/-- C21: when `HasCustomer(id)` is true, `GetCustomer(id)` is defined and
returns the customer stored under the key `id`; in a collection whose
customers are stored under their own ids its id field equals `id`. -/
theorem GetCustomer_defined (db : Database) (id : Nat) (hhas : db.HasCustomer id = true)
    (hkeys : db.customers_.KeysAreIds) :
    ∃ c, db.GetCustomer id = some c ∧ (id, c) ∈ db.customers_ ∧ c.id_ = id := by
  simp only [Database.HasCustomer] at hhas
  obtain ⟨c, hc⟩ := Option.isSome_iff_exists.mp hhas
  have hmem := CustomerMap.find_mem _ _ _ hc
  exact ⟨c, hc, hmem, hkeys _ hmem⟩

theorem GetCustomer_defined_witness :
    ∃ c, Database.GetCustomer
        ⟨none, true, [(1, ⟨1, ['A'], ['B'], []⟩), (3, ⟨3, ['C'], ['D'], []⟩)]⟩ 3 = some c ∧
      (3, c) ∈ (Database.mk none true
        [(1, ⟨1, ['A'], ['B'], []⟩), (3, ⟨3, ['C'], ['D'], []⟩)]).customers_ ∧ c.id_ = 3 :=
  GetCustomer_defined ⟨none, true, [(1, ⟨1, ['A'], ['B'], []⟩), (3, ⟨3, ['C'], ['D'], []⟩)]⟩ 3
    (by decide) (by decide)

/-- C22: for an id that is not a key of the collection the range query
returns the output sequence as it was given, whatever the bounds, so an
empty output stays empty and `PrintCustomerInteractions` returns false. -/
theorem range_query_absent_customer (parse : Str → Option Int) (db : Database) (id : Nat)
    (from_timestamp to_timestamp : Int) (out : List Interaction)
    (habsent : id ∉ CustomerMap.keys db.customers_) :
    Database.GetCustomerInteractionsInRange parse db id from_timestamp to_timestamp out = out ∧
      Database.GetCustomerInteractionsInRange parse db id from_timestamp to_timestamp [] = [] ∧
      CRM.PrintCustomerInteractions parse ⟨db⟩ id from_timestamp to_timestamp = false := by
  have hhas : db.HasCustomer id = false := by
    cases h : db.HasCustomer id with
    | false => rfl
    | true => exact absurd ((Database.HasCustomer_iff db id).mp h) habsent
  have h : ∀ o, Database.GetCustomerInteractionsInRange parse db id from_timestamp to_timestamp o
      = o := by
    intro o
    simp [Database.GetCustomerInteractionsInRange, hhas]
  refine ⟨h out, h [], ?_⟩
  simp [CRM.PrintCustomerInteractions, h []]

theorem range_query_absent_customer_witness :
    Database.GetCustomerInteractionsInRange (fun _ => some 5)
        ⟨none, true, [(1, ⟨1, ['A'], ['B'], [⟨['w'], ['n']⟩]⟩)]⟩ 2 0 10 [⟨['x'], ['y']⟩]
        = [⟨['x'], ['y']⟩] ∧
      Database.GetCustomerInteractionsInRange (fun _ => some 5)
        ⟨none, true, [(1, ⟨1, ['A'], ['B'], [⟨['w'], ['n']⟩]⟩)]⟩ 2 0 10 [] = [] ∧
      CRM.PrintCustomerInteractions (fun _ => some 5)
        ⟨⟨none, true, [(1, ⟨1, ['A'], ['B'], [⟨['w'], ['n']⟩]⟩)]⟩⟩ 2 0 10 = false :=
  range_query_absent_customer (fun _ => some 5)
    ⟨none, true, [(1, ⟨1, ['A'], ['B'], [⟨['w'], ['n']⟩]⟩)]⟩ 2 0 10 [⟨['x'], ['y']⟩] (by decide)

/-- C23: a successful `UpdateClientInfo` on a present id leaves the keys of
the collection as they were, keeps the id and the interaction log of the
updated customer (same entries, same order), and leaves the lookup of every
other key unchanged; only the name and surname of that customer are set. -/
theorem UpdateClientInfo_frame (db : Database) (id : Nat) (name surname : Str) (c : Customer)
    (hc : CustomerMap.find db.customers_ id = some c) :
    (db.UpdateClientInfo id name surname).1 = true ∧
      CustomerMap.keys (db.UpdateClientInfo id name surname).2.customers_
        = CustomerMap.keys db.customers_ ∧
      CustomerMap.find (db.UpdateClientInfo id name surname).2.customers_ id
        = some ⟨c.id_, name, surname, c.customer_interactions_⟩ ∧
      ∀ k, k ≠ id →
        CustomerMap.find (db.UpdateClientInfo id name surname).2.customers_ k
          = CustomerMap.find db.customers_ k := by
  have hhas : db.HasCustomer id = true := by
    simp [Database.HasCustomer, hc]
  rw [Database.UpdateClientInfo_present db id name surname hhas]
  refine ⟨rfl, ?_, ?_, ?_⟩
  · simp only [Database.customers_SaveDatabase, CustomerMap.keys_modify]
  · simp only [Database.customers_SaveDatabase, CustomerMap.find_modify, if_true, hc]
    rfl
  · intro k hk
    simp only [Database.customers_SaveDatabase, CustomerMap.find_modify, if_neg hk]

theorem UpdateClientInfo_frame_witness :
    (Database.UpdateClientInfo
        ⟨none, true, [(1, ⟨1, ['A'], ['B'], [⟨['w'], ['n']⟩]⟩), (3, ⟨3, ['C'], ['D'], []⟩)]⟩
        1 ['E'] ['F']).1 = true ∧
      CustomerMap.keys (Database.UpdateClientInfo
        ⟨none, true, [(1, ⟨1, ['A'], ['B'], [⟨['w'], ['n']⟩]⟩), (3, ⟨3, ['C'], ['D'], []⟩)]⟩
        1 ['E'] ['F']).2.customers_
        = CustomerMap.keys (Database.mk none true
          [(1, ⟨1, ['A'], ['B'], [⟨['w'], ['n']⟩]⟩), (3, ⟨3, ['C'], ['D'], []⟩)]).customers_ ∧
      CustomerMap.find (Database.UpdateClientInfo
        ⟨none, true, [(1, ⟨1, ['A'], ['B'], [⟨['w'], ['n']⟩]⟩), (3, ⟨3, ['C'], ['D'], []⟩)]⟩
        1 ['E'] ['F']).2.customers_ 1
        = some ⟨(Customer.mk 1 ['A'] ['B'] [⟨['w'], ['n']⟩]).id_, ['E'], ['F'],
            (Customer.mk 1 ['A'] ['B'] [⟨['w'], ['n']⟩]).customer_interactions_⟩ ∧
      ∀ k, k ≠ 1 →
        CustomerMap.find (Database.UpdateClientInfo
          ⟨none, true, [(1, ⟨1, ['A'], ['B'], [⟨['w'], ['n']⟩]⟩), (3, ⟨3, ['C'], ['D'], []⟩)]⟩
          1 ['E'] ['F']).2.customers_ k
          = CustomerMap.find (Database.mk none true
            [(1, ⟨1, ['A'], ['B'], [⟨['w'], ['n']⟩]⟩), (3, ⟨3, ['C'], ['D'], []⟩)]).customers_ k :=
  UpdateClientInfo_frame
    ⟨none, true, [(1, ⟨1, ['A'], ['B'], [⟨['w'], ['n']⟩]⟩), (3, ⟨3, ['C'], ['D'], []⟩)]⟩
    1 ['E'] ['F'] ⟨1, ['A'], ['B'], [⟨['w'], ['n']⟩]⟩ (by decide)

theorem InRange_inverted (parse : Str → Option Int) (i : Interaction)
    (from_timestamp to_timestamp : Int) (h : from_timestamp > to_timestamp) :
    i.InRange parse from_timestamp to_timestamp = false := by
  simp only [Interaction.InRange, Bool.and_eq_false_imp, decide_eq_true_eq, decide_eq_false_iff_not]
  intro h1
  omega

/-- C24: with bounds `from > to` the range query adds no interaction to the
output, whatever the id, the customer's log and the parse results; an empty
output stays empty.  The bounds are not swapped. -/
theorem range_query_inverted_bounds (parse : Str → Option Int) (db : Database) (id : Nat)
    (from_timestamp to_timestamp : Int) (out : List Interaction)
    (hinv : from_timestamp > to_timestamp) :
    Database.GetCustomerInteractionsInRange parse db id from_timestamp to_timestamp out = out ∧
      Database.GetCustomerInteractionsInRange parse db id from_timestamp to_timestamp [] = [] := by
  have h : ∀ o, Database.GetCustomerInteractionsInRange parse db id from_timestamp to_timestamp o
      = o := by
    intro o
    cases hc : CustomerMap.find db.customers_ id with
    | none => simp [Database.GetCustomerInteractionsInRange, Database.HasCustomer, hc]
    | some c =>
      rw [GetCustomerInteractionsInRange_eq parse db id c _ _ o hc]
      have hf : c.customer_interactions_.filter
          (fun i => i.InRange parse from_timestamp to_timestamp) = [] := by
        rw [List.filter_eq_nil_iff]
        intro i _
        rw [InRange_inverted parse i _ _ hinv]
        simp
      rw [hf, List.append_nil]
  exact ⟨h out, h []⟩

theorem range_query_inverted_bounds_witness :
    Database.GetCustomerInteractionsInRange (fun _ => some 5)
        ⟨none, true, [(1, ⟨1, ['A'], ['B'], [⟨['w'], ['n']⟩]⟩)]⟩ 1 10 0 [] = [] ∧
      Database.GetCustomerInteractionsInRange (fun _ => some 5)
        ⟨none, true, [(1, ⟨1, ['A'], ['B'], [⟨['w'], ['n']⟩]⟩)]⟩ 1 10 0 [] = [] :=
  range_query_inverted_bounds (fun _ => some 5)
    ⟨none, true, [(1, ⟨1, ['A'], ['B'], [⟨['w'], ['n']⟩]⟩)]⟩ 1 10 0 [] (by decide)

/-! ## Note sanitisation -/

theorem any_beq_iff_mem (pattern : Str) (c : Char) :
    pattern.any (fun p => p == c) = true ↔ c ∈ pattern := by
  simp [List.any_eq_true]

/-- C25: `remove_chars_from_str` keeps the length of the string; at every
position the result holds the replacement character when the original
character occurs in the pattern and the original character otherwise; the
function is idempotent; and with the pattern tab, CR, LF and the replacement
space the result contains no tab, no CR and no LF. -/
theorem remove_chars_from_str_spec (str pattern : Str) (replace : Char) :
    (remove_chars_from_str str pattern replace).length = str.length ∧
      (∀ i : Nat, (remove_chars_from_str str pattern replace)[i]?
        = (str[i]?).map (fun c => if c ∈ pattern then replace else c)) ∧
      remove_chars_from_str (remove_chars_from_str str pattern replace) pattern replace
        = remove_chars_from_str str pattern replace ∧
      ('\t' ∉ remove_chars_from_str str ['\t', '\r', '\n'] ' ' ∧
        '\r' ∉ remove_chars_from_str str ['\t', '\r', '\n'] ' ' ∧
        '\n' ∉ remove_chars_from_str str ['\t', '\r', '\n'] ' ') := by
  have hmap : ∀ (s p : Str) (r : Char),
      remove_chars_from_str s p r = s.map (fun c => if c ∈ p then r else c) := by
    intro s p r
    simp only [remove_chars_from_str]
    apply List.map_congr_left
    intro c _
    by_cases h : c ∈ p
    · rw [if_pos h, if_pos ((any_beq_iff_mem p c).mpr h)]
    · rw [if_neg h, if_neg (fun ha => h ((any_beq_iff_mem p c).mp ha))]
  have hno : ∀ x : Char, x ∈ ['\t', '\r', '\n'] →
      x ∉ remove_chars_from_str str ['\t', '\r', '\n'] ' ' := by
    intro x hx hmem
    rw [hmap, List.mem_map] at hmem
    obtain ⟨c, _, hc⟩ := hmem
    by_cases hcp : c ∈ ['\t', '\r', '\n']
    · rw [if_pos hcp] at hc
      rw [← hc] at hx
      exact absurd hx (by decide)
    · rw [if_neg hcp] at hc
      rw [hc] at hcp
      exact hcp hx
  refine ⟨?_, ?_, ?_, hno _ (by decide), hno _ (by decide), hno _ (by decide)⟩
  · simp [remove_chars_from_str]
  · intro i
    rw [hmap, List.getElem?_map]
  · rw [hmap, hmap, List.map_map]
    apply List.map_congr_left
    intro c _
    simp only [Function.comp]
    by_cases hcp : c ∈ pattern
    · simp only [if_pos hcp]
      split <;> rfl
    · simp only [if_neg hcp]

/-! ## Conditional round-trip -/

/-- C26: every customer with a 32-bit id whose fields contain no tab (a
line terminator in a field does not matter for the decoding of one line) and
whose interaction log is empty or ends with a non-empty note is decoded
from its encoded line (line feed removed) unchanged; and the customer
`(1, A, B, [(w1, n1), (w2, "")])` is decoded without its last interaction. -/
theorem conditional_roundtrip (c : Customer) :
    (c.id_ < 2 ^ 32 → '\t' ∉ c.name_ → '\t' ∉ c.surname_ →
        (∀ i ∈ c.customer_interactions_, '\t' ∉ i.when_ ∧ '\t' ∉ i.what_) →
        (∀ i ∈ c.customer_interactions_.getLast?, i.what_ ≠ []) →
        decodeLine (Customer.write [] c).dropLast = some c) ∧
      ∃ c' : Customer,
        (∃ i, c'.customer_interactions_.getLast? = some i ∧ i.what_ = []) ∧
        decodeLine (Customer.write [] c').dropLast
          = some ⟨c'.id_, c'.name_, c'.surname_, c'.customer_interactions_.dropLast⟩ := by
  constructor
  · intro hid hname hsur hint hlast
    rw [Customer_write_eq, List.nil_append, List.dropLast_concat,
      decodeLine_line c hid hname hsur hint, pairFields_flatMap _ hlast]
  · exact ⟨⟨1, ['A'], ['B'], [⟨['w', '1'], ['n', '1']⟩, ⟨['w', '2'], []⟩]⟩,
      ⟨⟨['w', '2'], []⟩, rfl, rfl⟩, by decide⟩

theorem conditional_roundtrip_witness :
    decodeLine (Customer.write [] ⟨9, ['A'], [], [⟨[], ['n']⟩]⟩).dropLast
      = some ⟨9, ['A'], [], [⟨[], ['n']⟩]⟩ :=
  (conditional_roundtrip ⟨9, ['A'], [], [⟨[], ['n']⟩]⟩).1 (by decide) (by decide) (by decide)
    (by decide) (by decide)

/-! ## Name uniqueness is not kept by updates -/

/-- C30: the store built from the empty collection by two calls of
`CRM::AddCustomer` holds customers 2 and 3 with different (name, surname)
pairs; `UpdateClientInfo(3, A, B)` returns true, and afterwards the two
different ids 2 and 3 carry the same name and the same surname. -/
theorem UpdateClientInfo_breaks_name_uniqueness :
    let crm0 : CRM := ⟨⟨none, true, []⟩⟩
    let crm1 := (crm0.AddCustomer ['A'] ['B']).2
    let crm2 := (crm1.AddCustomer ['C'] ['D']).2
    let r := crm2.UpdateClientInfo 3 ['A'] ['B']
    (crm0.AddCustomer ['A'] ['B']).1 = true ∧ (crm1.AddCustomer ['C'] ['D']).1 = true ∧
      CustomerMap.find crm2.database_.customers_ 2 = some ⟨2, ['A'], ['B'], []⟩ ∧
      CustomerMap.find crm2.database_.customers_ 3 = some ⟨3, ['C'], ['D'], []⟩ ∧
      CustomerMap.keys crm2.database_.customers_ = [2, 3] ∧
      r.1 = true ∧
      CustomerMap.find r.2.database_.customers_ 2 = some ⟨2, ['A'], ['B'], []⟩ ∧
      CustomerMap.find r.2.database_.customers_ 3 = some ⟨3, ['A'], ['B'], []⟩ := by
  decide

/-! ## Key and id agree -/

namespace CustomerMap

theorem mem_assign (m : CustomerMap) (k : Nat) (v : Customer) (e : Nat × Customer)
    (he : e ∈ assign m k v) : e = (k, v) ∨ e ∈ m := by
  induction m with
  | nil => simpa [assign] using he
  | cons e0 rest ih =>
    obtain ⟨k0, v0⟩ := e0
    simp only [assign] at he
    split at he
    · simpa using he
    · split at he
      · next h =>
        simp only [List.mem_cons] at he
        rcases he with rfl | he
        · exact Or.inl (by rw [h])
        · exact Or.inr (List.mem_cons_of_mem _ he)
      · simp only [List.mem_cons] at he
        rcases he with rfl | he
        · exact Or.inr (by simp)
        · rcases ih he with h | h
          · exact Or.inl h
          · exact Or.inr (List.mem_cons_of_mem _ h)

theorem KeysAreIds_assign (m : CustomerMap) (k : Nat) (v : Customer) (h : KeysAreIds m)
    (hv : v.id_ = k) : KeysAreIds (assign m k v) := by
  intro e he
  rcases mem_assign m k v e he with rfl | hmem
  · exact hv
  · exact h e hmem

theorem WF_assign (m : CustomerMap) (k : Nat) (v : Customer) (hwf : WF m) (hk : k < 2 ^ 32) :
    WF (assign m k v) := by
  induction m with
  | nil =>
    refine ⟨by simp [assign, keys], ?_⟩
    intro x hx
    simp only [assign, keys, List.map_cons, List.map_nil, List.mem_singleton] at hx
    rw [hx]
    exact hk
  | cons e0 rest ih =>
    obtain ⟨k0, v0⟩ := e0
    have h1 := hwf.1
    have h2 := hwf.2
    simp only [keys, List.map_cons, List.pairwise_cons, List.mem_cons] at h1 h2
    simp only [assign]
    split
    · next hlt =>
      refine ⟨?_, ?_⟩
      · simp only [keys, List.map_cons, List.pairwise_cons, List.mem_cons]
        refine ⟨?_, h1⟩
        rintro x (rfl | hx)
        · exact hlt
        · exact Nat.lt_trans hlt (h1.1 x hx)
      · intro x hx
        simp only [keys, List.map_cons, List.mem_cons] at hx
        rcases hx with rfl | hx
        · exact hk
        · exact h2 x hx
    · split
      · exact hwf
      · next hnlt hne =>
        have ih' := ih (WF_tail _ _ hwf)
        refine ⟨?_, ?_⟩
        · simp only [keys, List.map_cons, List.pairwise_cons]
          refine ⟨?_, ih'.1⟩
          intro x hx
          simp only [List.mem_map] at hx
          obtain ⟨e, he, rfl⟩ := hx
          rcases mem_assign rest k v e he with rfl | hmem
          · simp only
            omega
          · exact h1.1 e.1 (List.mem_map_of_mem Prod.fst hmem)
        · intro x hx
          simp only [keys, List.map_cons, List.mem_cons] at hx
          rcases hx with rfl | hx
          · exact h2 x (Or.inl rfl)
          · exact ih'.2 x hx

end CustomerMap

theorem try_convert_lt (input : Str) : (try_convert input 0).2 < 2 ^ 32 := by
  unfold try_convert
  split
  · exact Nat.mod_lt _ (by norm_num)
  · norm_num

theorem loadStep_invariant (m : CustomerMap) (line : Str)
    (h : m.WF ∧ m.KeysAreIds) : (loadStep m line).WF ∧ (loadStep m line).KeysAreIds := by
  simp only [loadStep]
  split
  · exact h
  · exact ⟨CustomerMap.WF_assign _ _ _ h.1 (try_convert_lt _),
      CustomerMap.KeysAreIds_assign _ _ _ h.2 rfl⟩

theorem foldl_loadStep_invariant (ls : List Str) :
    ∀ m : CustomerMap, m.WF ∧ m.KeysAreIds →
      (ls.foldl loadStep m).WF ∧ (ls.foldl loadStep m).KeysAreIds := by
  induction ls with
  | nil => intro m h; exact h
  | cons l rest ih =>
    intro m h
    rw [List.foldl_cons]
    exact ih _ (loadStep_invariant m l h)

/-- The constructor always returns a store, and its collection is
well-formed with every customer under its own id. -/
theorem create_invariant (file : Option Str) (w : Bool) :
    ∃ db, Database.create file w = some db ∧ db.customers_.WF ∧ db.customers_.KeysAreIds := by
  cases file with
  | none =>
    have hnil : CustomerMap.WF [] ∧ CustomerMap.KeysAreIds [] := ⟨by decide, by decide⟩
    exact ⟨⟨none, w, []⟩, rfl, hnil.1, hnil.2⟩
  | some content =>
    refine ⟨_, by rw [Database.create, Database.LoadFromFile_eq]; rfl, ?_⟩
    exact foldl_loadStep_invariant _ [] ⟨by decide, by decide⟩

theorem perform_invariant (db : Database) (call : Database.Call)
    (h : db.customers_.WF ∧ db.customers_.KeysAreIds) :
    (db.perform call).customers_.WF ∧ (db.perform call).customers_.KeysAreIds := by
  cases call with
  | addCustomer name surname =>
    simp only [Database.perform]
    rw [Database.customers_AddCustomer]
    exact ⟨CustomerMap.WF_insert _ _ _ h.1 (Database.AddCustomer_id_lt db name surname),
      CustomerMap.KeysAreIds_insert _ _ _ h.2 rfl⟩
  | updateClientInfo id name surname =>
    simp only [Database.perform]
    cases hh : db.HasCustomer id with
    | false => rw [Database.UpdateClientInfo_absent db id name surname hh]; exact h
    | true =>
      rw [Database.UpdateClientInfo_present db id name surname hh]
      simp only [Database.customers_SaveDatabase]
      exact ⟨CustomerMap.WF_modify _ _ _ h.1,
        CustomerMap.KeysAreIds_modify _ _ _ h.2 (fun _ => rfl)⟩
  | removeCustomer id =>
    simp only [Database.perform]
    cases hh : db.HasCustomer id with
    | false => rw [Database.RemoveCustomer_absent db id hh]; exact h
    | true =>
      rw [Database.RemoveCustomer_present db id hh]
      simp only [Database.customers_SaveDatabase]
      exact ⟨CustomerMap.WF_erase _ _ h.1, CustomerMap.KeysAreIds_erase _ _ h.2⟩
  | addInteraction id when_ what_ =>
    simp only [Database.perform]
    cases hh : db.HasCustomer id with
    | false => rw [Database.AddInteraction_absent db id when_ what_ hh]; exact h
    | true =>
      rw [Database.AddInteraction_present db id when_ what_ hh]
      simp only [Database.customers_SaveDatabase]
      exact ⟨CustomerMap.WF_modify _ _ _ h.1,
        CustomerMap.KeysAreIds_modify _ _ _ h.2 (fun _ => rfl)⟩

theorem performAll_invariant (calls : List Database.Call) :
    ∀ db : Database, db.customers_.WF ∧ db.customers_.KeysAreIds →
      (db.performAll calls).customers_.WF ∧ (db.performAll calls).customers_.KeysAreIds := by
  induction calls with
  | nil => intro db h; exact h
  | cons call rest ih =>
    intro db h
    simp only [Database.performAll, List.foldl_cons]
    exact ih _ (perform_invariant db call h)

/-- C27: for every backing file (present or not) and every sequence of
`AddCustomer`, `UpdateClientInfo`, `RemoveCustomer` and `AddInteraction`
calls made after the constructor has loaded the file, every entry `(k, c)` of
the collection has `k = c.id_` (and the keys are strictly ascending 32-bit
values); hence every id that `FindCustomers` reports from its name/surname
scan is a key of the collection. -/
theorem key_id_agreement (file : Option Str) (w : Bool) (calls : List Database.Call) :
    ∃ db0, Database.create file w = some db0 ∧
      (∀ e ∈ (db0.performAll calls).customers_, e.1 = e.2.id_) ∧
      (db0.performAll calls).customers_.WF ∧
      ∀ (id name surname : Str), stoull id = none →
        ∀ k ∈ (CRM.FindCustomers ⟨db0.performAll calls⟩ id name surname []).2,
          k ∈ CustomerMap.keys (db0.performAll calls).customers_ := by
  obtain ⟨db0, hcreate, hwf, hkeys⟩ := create_invariant file w
  obtain ⟨hwf', hkeys'⟩ := performAll_invariant calls db0 ⟨hwf, hkeys⟩
  refine ⟨db0, hcreate, fun e he => (hkeys' e he).symm, hwf', ?_⟩
  intro id name surname hid k hk
  rw [FindCustomers_scan _ id name surname [] hid, List.nil_append, List.mem_map] at hk
  obtain ⟨e, he, rfl⟩ := hk
  have hmem := List.mem_of_mem_filter he
  rw [hkeys' e hmem]
  exact List.mem_map_of_mem Prod.fst hmem

/-! ## Id overflow and id narrowing -/

theorem insert_of_mem_keys (m : CustomerMap) (k : Nat) (v : Customer) (hwf : m.WF)
    (hmem : k ∈ CustomerMap.keys m) : CustomerMap.insert m k v = m := by
  induction m with
  | nil => simp [CustomerMap.keys] at hmem
  | cons e0 rest ih =>
    obtain ⟨k0, v0⟩ := e0
    have h1 := hwf.1
    simp only [CustomerMap.keys, List.map_cons, List.pairwise_cons, List.mem_cons] at h1 hmem
    simp only [CustomerMap.insert]
    rcases hmem with rfl | hmem
    · simp
    · have hlt := h1.1 k hmem
      rw [if_neg (by omega), if_neg (by omega), ih (CustomerMap.WF_tail _ _ hwf) hmem]

/-- C28: on a well-formed collection whose highest id is `2^32 - 1`,
`AddCustomer` returns 0; when 0 was not a key the new customer is stored
under key 0 and every other lookup is unchanged, when 0 was a key the
collection is unchanged; and `CRM::AddCustomer` returns false. -/
theorem AddCustomer_overflow (db : Database) (name surname : Str) (hwf : db.customers_.WF)
    (hmax : 2 ^ 32 - 1 ∈ CustomerMap.keys db.customers_) :
    (db.AddCustomer name surname).1 = 0 ∧
      (0 ∉ CustomerMap.keys db.customers_ →
        CustomerMap.find (db.AddCustomer name surname).2.customers_ 0
          = some ⟨0, name, surname, []⟩ ∧
        ∀ k, k ≠ 0 →
          CustomerMap.find (db.AddCustomer name surname).2.customers_ k
            = CustomerMap.find db.customers_ k) ∧
      (0 ∈ CustomerMap.keys db.customers_ →
        (db.AddCustomer name surname).2.customers_ = db.customers_) ∧
      (CRM.AddCustomer ⟨db⟩ name surname).1 = false := by
  have hhigh : db.GetHighestCustomerID = 2 ^ 32 - 1 :=
    Database.GetHighestCustomerID_eq db hwf _ hmax (fun k hk => by have := hwf.2 k hk; omega)
  have hid : (db.AddCustomer name surname).1 = 0 := by
    simp only [Database.AddCustomer, hhigh]
    norm_num
  refine ⟨hid, ?_, ?_, ?_⟩
  · intro h0
    rw [Database.customers_AddCustomer, hid]
    exact ⟨CustomerMap.find_insert_self _ _ _ ((CustomerMap.find_eq_none_iff _ _).mpr h0),
      fun k hk => CustomerMap.find_insert_ne _ _ _ _ hk⟩
  · intro h0
    rw [Database.customers_AddCustomer, hid]
    exact insert_of_mem_keys _ _ _ hwf h0
  · simp only [CRM.AddCustomer]
    split
    · rfl
    · simp [hid, INVALID_CUSTOMER_ID]

theorem AddCustomer_overflow_witness :
    (Database.AddCustomer
        ⟨none, true, [(1, ⟨1, ['A'], ['B'], []⟩), (4294967295, ⟨4294967295, ['C'], ['D'], []⟩)]⟩
        ['E'] ['F']).1 = 0 ∧
      (0 ∉ CustomerMap.keys (Database.mk none true
          [(1, ⟨1, ['A'], ['B'], []⟩), (4294967295, ⟨4294967295, ['C'], ['D'], []⟩)]).customers_ →
        CustomerMap.find (Database.AddCustomer
          ⟨none, true, [(1, ⟨1, ['A'], ['B'], []⟩), (4294967295, ⟨4294967295, ['C'], ['D'], []⟩)]⟩
          ['E'] ['F']).2.customers_ 0 = some ⟨0, ['E'], ['F'], []⟩ ∧
        ∀ k, k ≠ 0 →
          CustomerMap.find (Database.AddCustomer
            ⟨none, true, [(1, ⟨1, ['A'], ['B'], []⟩), (4294967295, ⟨4294967295, ['C'], ['D'], []⟩)]⟩
            ['E'] ['F']).2.customers_ k
            = CustomerMap.find (Database.mk none true
              [(1, ⟨1, ['A'], ['B'], []⟩),
                (4294967295, ⟨4294967295, ['C'], ['D'], []⟩)]).customers_ k) ∧
      (0 ∈ CustomerMap.keys (Database.mk none true
          [(1, ⟨1, ['A'], ['B'], []⟩), (4294967295, ⟨4294967295, ['C'], ['D'], []⟩)]).customers_ →
        (Database.AddCustomer
          ⟨none, true, [(1, ⟨1, ['A'], ['B'], []⟩), (4294967295, ⟨4294967295, ['C'], ['D'], []⟩)]⟩
          ['E'] ['F']).2.customers_
          = (Database.mk none true
            [(1, ⟨1, ['A'], ['B'], []⟩), (4294967295, ⟨4294967295, ['C'], ['D'], []⟩)]).customers_) ∧
      (CRM.AddCustomer
        ⟨⟨none, true, [(1, ⟨1, ['A'], ['B'], []⟩), (4294967295, ⟨4294967295, ['C'], ['D'], []⟩)]⟩⟩
        ['E'] ['F']).1 = false :=
  AddCustomer_overflow
    ⟨none, true, [(1, ⟨1, ['A'], ['B'], []⟩), (4294967295, ⟨4294967295, ['C'], ['D'], []⟩)]⟩
    ['E'] ['F'] (by decide) (by decide)

theorem try_convert_printNat_wide (n o : Nat) (h : n < 2 ^ 64) :
    try_convert (printNat n) o = (true, n % 2 ^ 32) := by
  simp only [try_convert, stoull_printNat n h]

/-- C29: a line whose id field is the decimal numeral of `n` with
`2^32 ≤ n < 2^64` decodes to a customer with id `n mod 2^32`; the id field
`4294967296` gives the invalid id 0 and `4294967297` gives id 1; and when
the last line of a file that decodes to id 1 has the id field `4294967297`,
the loaded collection holds under key 1 the customer of that line, whatever
earlier lines or the collection before the load held under 1. -/
theorem decode_narrows_id (n : Nat) (line : Str) (_hlow : 2 ^ 32 ≤ n) (hhigh : n < 2 ^ 64)
    (hfield : (splitFields '\t' line).getD 0 [] = printNat n) :
    (∃ c, decodeLine line = some c ∧ c.id_ = n % 2 ^ 32) ∧
      (∀ rest : Str, ∃ c, decodeLine (printNat 4294967296 ++ '\t' :: rest) = some c ∧
        c.id_ = 0 ∧ c.IsValid = false) ∧
      (∀ rest : Str, ∃ c, decodeLine (printNat 4294967297 ++ '\t' :: rest) = some c ∧
        c.id_ = 1) ∧
      ∀ (content : Str) (w : Bool) (m : CustomerMap) (before after : List Str) (rest : Str),
        fileLines content = before ++ (printNat 4294967297 ++ '\t' :: rest) :: after →
        (∀ l ∈ after, ∀ c, decodeLine l = some c → c.id_ ≠ 1) →
        ∃ db c, Database.LoadFromFile ⟨some content, w, m⟩ = some (true, db) ∧
          decodeLine (printNat 4294967297 ++ '\t' :: rest) = some c ∧ c.id_ = 1 ∧
          CustomerMap.find db.customers_ 1 = some c := by
  have hdec : ∀ (k : Nat) (l : Str), k < 2 ^ 64 →
      (splitFields '\t' l).getD 0 [] = printNat k →
      (customerOfFields (splitFields SERIALIZATION_DELIMITER l)).id_ = k % 2 ^ 32 := by
    intro k l hk hf
    simp only [customerOfFields, SERIALIZATION_DELIMITER, hf, try_convert_printNat_wide k 0 hk]
  have hfirst : ∀ (k : Nat) (rest : Str),
      (splitFields '\t' (printNat k ++ '\t' :: rest)).getD 0 [] = printNat k := by
    intro k rest
    rw [splitFields_append_delim _ _ _ (printNat_no_char k '\t' (by decide))]
    rfl
  refine ⟨⟨_, decodeLine_eq line, hdec n line hhigh hfield⟩, ?_, ?_, ?_⟩
  · intro rest
    have h := hdec 4294967296 _ (by norm_num) (hfirst 4294967296 rest)
    refine ⟨_, decodeLine_eq _, h, ?_⟩
    simp only [Customer.IsValid, INVALID_CUSTOMER_ID, h]
    decide
  · intro rest
    exact ⟨_, decodeLine_eq _, hdec 4294967297 _ (by norm_num) (hfirst 4294967297 rest)⟩
  · intro content w m before after rest hlines hafter
    have hid := hdec 4294967297 _ (by norm_num) (hfirst 4294967297 rest)
    have hid1 : (customerOfFields (splitFields SERIALIZATION_DELIMITER
        (printNat 4294967297 ++ '\t' :: rest))).id_ = 1 := by
      rw [hid]
      norm_num
    refine ⟨_, _, Database.LoadFromFile_eq content w m, decodeLine_eq _, hid1, ?_⟩
    simp only
    rw [hlines, List.foldl_append, List.foldl_cons, foldl_loadStep_other_ids _ _ _ hafter,
      find_loadStep, if_pos]
    refine ⟨?_, hid1.symm⟩
    simp only [Customer.IsValid, INVALID_CUSTOMER_ID, hid1]
    decide

theorem decode_narrows_id_witness :
    ∃ c, decodeLine ['4', '2', '9', '4', '9', '6', '7', '2', '9', '9', '\t', 'A', '\t', 'B']
        = some c ∧ c.id_ = 4294967299 % 2 ^ 32 :=
  (decode_narrows_id 4294967299
    ['4', '2', '9', '4', '9', '6', '7', '2', '9', '9', '\t', 'A', '\t', 'B']
    (by decide) (by decide) (by decide)).1

end Crm
